import Mathlib

/-!
Verification of the OpenPaw security wrapper against its specification.

This file shallowly embeds the parts of the TypeScript sources that the
checked claims refer to:

* `packages/vault/src/index.ts` — credential-id allocator, AES-256-GCM
  wrapper, and the `Vault` class persistence path;
* the MCP proxy module — `redactTokens`, `RateLimiter`, `injectCredentials`,
  `createMcpHandler`;
* the `SecureSessionStore` module — the flat pack format (`packDirectory`,
  `unpackToDirectory`), `importFromPlaintext`, `open`, `flush`;
* the gateway launcher module — `processAuthProfiles`.

Pure functions are translated into Lean functions over `List Char`
(JS strings) and `List Nat` (byte buffers); stateful and effectful code is
translated into explicit state passing together with a trace of file-system
operations.  External primitives (AES-GCM from node:crypto, zlib, SHA-256
randomness) are parameters of the embedding, constrained by hypotheses that
state their documented behaviour.
-/

namespace OpenPaw

/-- Character class `[a-zA-Z0-9]` (the JS regex alphanumeric class). -/
def isAlnum (c : Char) : Bool :=
  ('a' ≤ c && c ≤ 'z') || ('A' ≤ c && c ≤ 'Z') || ('0' ≤ c && c ≤ '9')

/-- Character class `[a-f0-9]`: lowercase hex digit. -/
def isHexLower (c : Char) : Bool :=
  ('a' ≤ c && c ≤ 'f') || ('0' ≤ c && c ≤ '9')

/-- A character matched by the JS regex `.` (anything but a line
terminator: `\n`, `\r`, U+2028, U+2029). -/
def isDotChar (c : Char) : Bool :=
  !(c = '\n' || c = '\r' || c = Char.ofNat 0x2028 || c = Char.ofNat 0x2029)

/-! ## Reference-id allocator (`generateCredentialId` / `parseCredentialId`)

`generateCredentialId(service, type)` in the source computes
`hash = sha256(service + ":" + type + ":" + Date.now() + ":" + random).hex.slice(0,4)`
and returns the template string `cred_${service}_${type}_${hash}`.
The digest depends on the clock and on 8 random bytes, so the embedding
takes the four sliced digest characters as an explicit oracle argument;
a SHA-256 hex digest consists of lowercase hex characters, so the oracle
value always satisfies `hash.length = 4 ∧ hash.all isHexLower`. -/

def generateCredentialId (service ty hash : List Char) : List Char :=
  'c' :: 'r' :: 'e' :: 'd' :: '_' :: (service ++ '_' :: (ty ++ '_' :: hash))

/-- `parseCredentialId` applies the JS regex
`^cred_([a-zA-Z0-9]+)_(.+)_([a-f0-9]{4})$` and returns the three captures.

The regex is deterministic: the first group is the maximal alphanumeric run
after the literal `cred_` (backtracking cannot shorten it, because a shorter
run would have to be followed by `_` yet ends at an alphanumeric character),
and the `$`-anchored tail fixes the third group to the last four characters
and the separating `_` to the fifth-from-last position, with the middle
group the (nonempty, line-terminator-free) remainder. -/
def parseCredentialId (id : List Char) :
    Option (List Char × List Char × List Char) :=
  match id with
  | 'c' :: 'r' :: 'e' :: 'd' :: '_' :: rest =>
    let service := rest.takeWhile isAlnum
    if service = [] then none
    else
      match rest.dropWhile isAlnum with
      | '_' :: r =>
        match r.reverse with
        | h4 :: h3 :: h2 :: h1 :: '_' :: tyRev =>
          let hash := [h1, h2, h3, h4]
          let ty := tyRev.reverse
          if ty ≠ [] ∧ hash.all isHexLower ∧ ty.all isDotChar then
            some (service, ty, hash)
          else none
        | _ => none
      | _ => none
  | _ => none

/-- C9, counterexample: for `service = "a_b"` and `type = "t"` the parser
splits the id at the first underscore of the service, returning service
`"a"` and type `"b_t"`, not the inputs. -/
theorem parse_generate_mismatch_underscore_service :
    parseCredentialId (generateCredentialId "a_b".toList "t".toList "abcd".toList)
        = some ("a".toList, "b_t".toList, "abcd".toList) ∧
      some ("a".toList, "b_t".toList, "abcd".toList) ≠
        some ("a_b".toList, "t".toList, "abcd".toList) := by
  decide

/-- C9 (amended): for every nonempty alphanumeric `service`, nonempty
line-terminator-free `type`, and digest slice `hash` of four lowercase hex
characters (as SHA-256 hex digests always are), the generated id parses
back to exactly `(service, type, hash)`. -/
theorem generateCredentialId_parse_roundtrip
    (service ty hash : List Char)
    (hs : service ≠ []) (hsa : service.all isAlnum = true)
    (ht : ty ≠ []) (htd : ty.all isDotChar = true)
    (hh4 : hash.length = 4) (hhx : hash.all isHexLower = true) :
    parseCredentialId (generateCredentialId service ty hash)
      = some (service, ty, hash) := by
  obtain ⟨a, b, c, d, rfl⟩ : ∃ a b c d, hash = [a, b, c, d] := by
    match hash, hh4 with
    | [a, b, c, d], _ => exact ⟨a, b, c, d, rfl⟩
  have halnum : ∀ x ∈ service, isAlnum x = true := by
    simpa [List.all_eq_true] using hsa
  have hdot : ∀ x ∈ ty, isDotChar x = true := by
    simpa [List.all_eq_true] using htd
  have hhex : isHexLower a = true ∧ isHexLower b = true ∧
      isHexLower c = true ∧ isHexLower d = true := by
    simpa [List.all_cons] using hhx
  simp only [generateCredentialId, parseCredentialId]
  rw [List.takeWhile_append_of_pos halnum, List.dropWhile_append_of_pos halnum]
  simp only [List.takeWhile_cons, List.dropWhile_cons,
    show isAlnum '_' = false from by decide, Bool.false_eq_true, if_false,
    List.append_nil]
  simp only [hs, if_false, List.reverse_append, List.reverse_cons,
    List.reverse_nil, List.nil_append, List.cons_append, List.append_assoc]
  simp [List.reverse_eq_nil_iff, ht, hhex.1, hhex.2.1, hhex.2.2.1, hhex.2.2.2,
    List.mem_reverse]
  exact hdot

/-- C9 witness: the round-trip theorem applied at a concrete input. -/
theorem generateCredentialId_parse_roundtrip_witness :
    parseCredentialId (generateCredentialId "svc".toList "api_key".toList "ab12".toList)
      = some ("svc".toList, "api_key".toList, "ab12".toList) :=
  generateCredentialId_parse_roundtrip _ _ _ (by decide) (by decide) (by decide)
    (by decide) (by decide) (by decide)

/-! ## File-system effect traces

Effectful methods are embedded as pure functions that return, besides their
value, the ordered list of file-system operations they perform. -/

/-- A file-system operation, as performed through `node:fs/promises`.
`mode` is the permission bits passed to `writeFile`, when any. -/
inductive FsOp where
  | mkdirp (path : String)
  | write (path : String) (content : String) (mode : Option Nat)
  | rename (src dst : String)
  | copy (src dst : String)
  deriving DecidableEq, Repr

/-! ## Vault document serialization and `Vault.save`

`Vault.save()` in `packages/vault/src/index.ts` is

```
const dir = dirname(this.vaultPath);
await mkdir(dir, { recursive: true });
await writeFile(this.vaultPath, JSON.stringify(this.store, null, 2), 'utf8');
```
-/

/-- A credential record of the vault document (all fields are strings in the
JSON document; `type` is one of the four enum tags). -/
structure Credential where
  id : String
  service : String
  ty : String
  encryptedValue : String
  createdAt : String
  updatedAt : String
  deriving DecidableEq, Repr

/-- The vault document `{ version: 1, credentials: [...] }`. -/
structure VaultStore where
  credentials : List Credential
  deriving DecidableEq, Repr

/-- Lowercase hex digit for JSON `\u00XX` escapes. -/
def hexDigit (n : Nat) : Char :=
  "0123456789abcdef".toList.getD n '0'

/-- JSON escaping of one character, as `JSON.stringify` performs it. -/
def jsonEscapeChar (c : Char) : List Char :=
  if c = '"' then ['\\', '"']
  else if c = '\\' then ['\\', '\\']
  else if c = '\n' then ['\\', 'n']
  else if c = '\r' then ['\\', 'r']
  else if c = '\t' then ['\\', 't']
  else if c = Char.ofNat 8 then ['\\', 'b']
  else if c = Char.ofNat 12 then ['\\', 'f']
  else if c.toNat < 0x20 then
    ['\\', 'u', '0', '0', hexDigit (c.toNat / 16), hexDigit (c.toNat % 16)]
  else [c]

/-- A JSON string literal with its quotes. -/
def jsonStr (s : String) : String :=
  "\"" ++ String.mk ((s.toList.map jsonEscapeChar).flatten) ++ "\""

/-- One credential record as `JSON.stringify(store, null, 2)` renders it
(an array element sits at indent 4, its fields at indent 6). -/
def serializeCredential (c : Credential) : String :=
  "    \x7b\n      \"id\": " ++ jsonStr c.id ++
  ",\n      \"service\": " ++ jsonStr c.service ++
  ",\n      \"type\": " ++ jsonStr c.ty ++
  ",\n      \"encryptedValue\": " ++ jsonStr c.encryptedValue ++
  ",\n      \"createdAt\": " ++ jsonStr c.createdAt ++
  ",\n      \"updatedAt\": " ++ jsonStr c.updatedAt ++ "\n    \x7d"

/-- `JSON.stringify(store, null, 2)` for the vault document. -/
def serializeVaultStore (store : VaultStore) : String :=
  "\x7b\n  \"version\": 1,\n  \"credentials\": " ++
    (if store.credentials = [] then "[]"
     else "[\n" ++
       String.intercalate ",\n" (store.credentials.map serializeCredential) ++
       "\n  ]") ++
  "\n\x7d"

/-- `path.dirname` (POSIX): strip trailing separators, drop the basename,
strip the separators before it; a separator-free path yields `"."`. -/
def dirname (p : String) : String :=
  let r := p.toList.reverse.dropWhile (· = '/')
  let r2 := r.dropWhile (· ≠ '/')
  let r3 := r2.dropWhile (· = '/')
  if r3 = [] then (if p.toList.head? = some '/' then "/" else ".")
  else String.mk r3.reverse

/-- The file-system trace of `Vault.save()`: a recursive `mkdir` of the
parent directory, then one direct `writeFile` of the serialized document to
the vault path. -/
def vaultSaveOps (store : VaultStore) (vaultPath : String) : List FsOp :=
  [FsOp.mkdirp (dirname vaultPath),
   FsOp.write vaultPath (serializeVaultStore store) none]

/-- The write-to-temporary-then-rename discipline the claim asserts of
`save()`: some operation writes `<path>.tmp` and a later one renames it over
the real path. -/
def atomicSaveShape (ops : List FsOp) (path : String) : Prop :=
  ∃ i j c m, i < j ∧ ops.get? i = some (FsOp.write (path ++ ".tmp") c m) ∧
    ops.get? j = some (FsOp.rename (path ++ ".tmp") path)

/-- C1, counterexample: for the empty store and the default vault path,
`save()` performs no write to `<path>.tmp` and no rename at all; it writes
the document directly to the real path. -/
theorem vaultSave_not_write_tmp_then_rename :
    ¬ atomicSaveShape (vaultSaveOps ⟨[]⟩ "/root/.openpaw/vault.json")
        "/root/.openpaw/vault.json" := by
  rintro ⟨i, j, c, m, hij, hi, hj⟩
  have hops : vaultSaveOps ⟨[]⟩ "/root/.openpaw/vault.json" =
      [FsOp.mkdirp "/root/.openpaw",
       FsOp.write "/root/.openpaw/vault.json"
         "\x7b\n  \"version\": 1,\n  \"credentials\": []\n\x7d" none] := by
    decide
  rw [hops] at hi hj
  match j, hj with
  | 0, hj => exact absurd (by injection hj) (by decide)
  | 1, hj => exact absurd (by injection hj) (by simp)
  | n + 2, hj => simp at hj

/-- C1 (amended): `save()` creates the parent directory and then writes the
serialized document directly to the vault path in one `writeFile`, for every
store and path: no temporary file is written and nothing is renamed, so an
interruption mid-write leaves a truncated partial (for instance the empty
truncation, which parses to neither the pre-call nor the post-call document)
rather than being redirected through an atomic rename. -/
theorem vaultSave_writes_directly (store : VaultStore) (path : String) :
    vaultSaveOps store path =
      [FsOp.mkdirp (dirname path),
       FsOp.write path (serializeVaultStore store) none] ∧
    (∀ c m, FsOp.write (path ++ ".tmp") c m ∉ vaultSaveOps store path) ∧
    (∀ a b, FsOp.rename a b ∉ vaultSaveOps store path) ∧
    ("" : String) ≠ serializeVaultStore store := by
  refine ⟨rfl, ?_, ?_, ?_⟩
  · intro c m hmem
    simp only [vaultSaveOps, List.mem_cons, List.mem_singleton] at hmem
    rcases hmem with h | h | h
    · exact FsOp.noConfusion h
    · have heq : path ++ ".tmp" = path := by injection h
      have hlen : (path ++ ".tmp").length = path.length := by rw [heq]
      rw [String.length_append, show (".tmp").length = 4 from rfl] at hlen
      omega
    · exact List.not_mem_nil _ h
  · intro a b hmem
    simp only [vaultSaveOps, List.mem_cons, List.mem_singleton] at hmem
    rcases hmem with h | h | h
    · exact FsOp.noConfusion h
    · exact FsOp.noConfusion h
    · exact List.not_mem_nil _ h
  · intro h
    have hlen : (serializeVaultStore store).length = 0 := by rw [← h]; rfl
    simp only [serializeVaultStore, String.length_append] at hlen
    rw [show ("\n\x7d").length = 2 from rfl] at hlen
    omega

/-! ## SecureSessionStore: flat pack format and tarball-at-rest

From the `SecureSessionStore` module: the pack format is
`[u32be name_length][name][u32be data_length][data]` repeated.  Byte buffers
are `List Nat`; file names travel as their UTF-8 bytes (the source decodes
them with `toString("utf-8")` and re-encodes on `path.join`; UTF-8
decode/encode is the identity on the byte level, and `'/'` and `'.'`
correspond exactly to the bytes `0x2F` and `0x2E`). -/

/-- `Buffer.readUInt32BE`. -/
def readU32 (a b c d : Nat) : Nat :=
  ((a * 256 + b) * 256 + c) * 256 + d

/-- `Buffer.writeUInt32BE` (big endian, for values below `2^32`;
`16777216 = 2^24`, `65536 = 2^16`). -/
def u32be (n : Nat) : List Nat :=
  [n / 16777216 % 256, n / 65536 % 256, n / 256 % 256, n % 256]

/-- A directory entry as `readdirSync` + `statSync` present it. -/
structure DirEntry where
  name : List Nat
  isFile : Bool
  data : List Nat
  deriving DecidableEq, Repr

/-- `packDirectory`: skip non-files, emit one frame
`[u32be name_len][name][u32be data_len][data]` per file in directory
order. -/
def packDirectory (dir : List DirEntry) : List Nat :=
  ((dir.filter (·.isFile)).map
    (fun e => u32be e.name.length ++ (e.name ++ (u32be e.data.length ++ e.data)))).flatten

/-- `path.basename` (POSIX) at the byte level: strip trailing `/` bytes,
then keep what follows the last remaining `/`. -/
def basenameBytes (n : List Nat) : List Nat :=
  ((n.reverse.dropWhile (· = 0x2F)).takeWhile (· ≠ 0x2F)).reverse

/-- One iteration of the `unpackToDirectory` loop: read the name length,
the name, the data length and the data, each bounds-checked against the
remaining buffer exactly as the source checks `offset + n > packed.length`
(`break` on failure, here `none`).  Returns the frame's name and data and
the unconsumed remainder. -/
def readFrame (buf : List Nat) : Option (List Nat × List Nat × List Nat) :=
  match buf with
  | a :: b :: c :: d :: rest =>
    if readU32 a b c d ≤ rest.length then
      match rest.drop (readU32 a b c d) with
      | e :: f :: g :: k :: rest2 =>
        if readU32 e f g k ≤ rest2.length then
          some (rest.take (readU32 a b c d), rest2.take (readU32 e f g k),
                rest2.drop (readU32 e f g k))
        else none
      | _ => none
    else none
  | _ => none

theorem readFrame_shape (buf name data rem : List Nat)
    (h : readFrame buf = some (name, data, rem)) :
    ∃ a b c d e f g k,
      buf = a :: b :: c :: d :: (name ++ e :: f :: g :: k :: (data ++ rem)) ∧
      readU32 a b c d = name.length ∧ readU32 e f g k = data.length := by
  unfold readFrame at h
  split at h
  case h_2 => exact absurd h (by simp)
  case h_1 a b c d rest =>
    split at h
    case isFalse => exact absurd h (by simp)
    case isTrue hname =>
      split at h
      case h_2 => exact absurd h (by simp)
      case h_1 e f g k rest2 hdrop =>
        split at h
        case isFalse => exact absurd h (by simp)
        case isTrue hdata =>
          obtain ⟨rfl, rfl, rfl⟩ : rest.take (readU32 a b c d) = name ∧
              rest2.take (readU32 e f g k) = data ∧
              rest2.drop (readU32 e f g k) = rem := by
            injection h with h2
            exact ⟨congrArg (·.1) h2, congrArg (·.2.1) h2, congrArg (·.2.2) h2⟩
          refine ⟨a, b, c, d, e, f, g, k, ?_, ?_, ?_⟩
          · have hr : rest.take (readU32 a b c d) ++ rest.drop (readU32 a b c d) = rest :=
              List.take_append_drop _ _
            have hr2 : rest2.take (readU32 e f g k) ++ rest2.drop (readU32 e f g k) = rest2 :=
              List.take_append_drop _ _
            rw [hdrop] at hr
            rw [hr2, hr]
          · simp [List.length_take, Nat.min_eq_left hname]
          · simp [List.length_take, Nat.min_eq_left hdata]

theorem readFrame_rem_lt (buf name data rem : List Nat)
    (h : readFrame buf = some (name, data, rem)) : rem.length < buf.length := by
  obtain ⟨a, b, c, d, e, f, g, k, hdec, -, -⟩ := readFrame_shape buf name data rem h
  subst hdec
  simp [List.length_append]
  omega

/-- `unpackToDirectory`, as the list of `(filename, data)` writes it
performs into the destination directory: frames are read until the buffer
is exhausted or a length check fails, and a frame is written only when
`path.basename(name) = name` and the name does not start with a dot. -/
def unpackWrites (buf : List Nat) : List (List Nat × List Nat) :=
  match h : readFrame buf with
  | none => []
  | some (name, data, remaining) =>
    (if basenameBytes name = name ∧ name.head? ≠ some 0x2E
     then [(basenameBytes name, data)] else []) ++ unpackWrites remaining
termination_by buf.length
decreasing_by exact readFrame_rem_lt buf name data remaining h

theorem unpackWrites_none {buf : List Nat} (h : readFrame buf = none) :
    unpackWrites buf = [] := by
  rw [unpackWrites.eq_def]
  split
  · rfl
  · rename_i name data rem heq
    rw [h] at heq
    exact absurd heq (by simp)

theorem unpackWrites_some {buf name data rem : List Nat}
    (h : readFrame buf = some (name, data, rem)) :
    unpackWrites buf =
      (if basenameBytes name = name ∧ name.head? ≠ some 0x2E
       then [(basenameBytes name, data)] else []) ++ unpackWrites rem := by
  rw [unpackWrites.eq_def]
  split
  · rename_i heq
    rw [h] at heq
    exact absurd heq (by simp)
  · rename_i name2 data2 rem2 heq
    rw [h] at heq
    obtain ⟨rfl, rfl, rfl⟩ : name = name2 ∧ data = data2 ∧ rem = rem2 := by
      injection heq with h2
      exact ⟨congrArg (·.1) h2, congrArg (·.2.1) h2, congrArg (·.2.2) h2⟩
    rfl

/-- The session-vault blob `{ iv, ciphertext, tag, version: 1 }` (hex fields
kept as bytes; hex encoding and the blob's JSON round-trip are invertible). -/
structure EncryptedBlob where
  iv : List Nat
  ciphertext : List Nat
  tag : List Nat
  deriving DecidableEq, Repr

/-- `SecureSessionStore.importFromPlaintext`: fail when the source directory
has no plain files, else pack → gzip → encrypt and write the blob as the
vault file.  `gz` is zlib gzip and `enc` AES-256-GCM under the master key
with a fresh IV, both external primitives taken as parameters; the returned
blob is the vault-file content written. -/
def importFromPlaintext (gz : List Nat → List Nat)
    (enc : List Nat → EncryptedBlob) (dir : List DirEntry) :
    Option EncryptedBlob :=
  if dir.filter (·.isFile) = [] then none
  else some (enc (gz (packDirectory dir)))

/-- The `(filename, data)` writes `SecureSessionStore.open()` performs into
the fresh scratch directory: when a vault file exists it is decrypted
(`dec`, authentication failure throws), gunzipped (`gunz`) and unpacked. -/
def openScratchWrites (gunz : List Nat → List Nat)
    (dec : EncryptedBlob → Option (List Nat))
    (vaultFile : Option EncryptedBlob) :
    Option (List (List Nat × List Nat)) :=
  match vaultFile with
  | none => some []
  | some blob =>
    match dec blob with
    | none => none
    | some compressed => some (unpackWrites (gunz compressed))

/-- `open()` right after `importFromPlaintext(D)`: the vault file on disk is
the blob the import wrote. -/
def openAfterImport (gz : List Nat → List Nat) (enc : List Nat → EncryptedBlob)
    (gunz : List Nat → List Nat) (dec : EncryptedBlob → Option (List Nat))
    (dir : List DirEntry) : Option (List (List Nat × List Nat)) :=
  match importFromPlaintext gz enc dir with
  | none => none
  | some blob => openScratchWrites gunz dec (some blob)

/-- The identity on byte lists: instantiates the gzip/gunzip parameters in
concrete evaluations (gzip round-trips, so the identity satisfies the same
law). -/
def idBytes (x : List Nat) : List Nat := x

/-- A trivial cipher instantiation for concrete evaluations: the blob holds
the plaintext as its ciphertext field. -/
def trivEncBlob (x : List Nat) : EncryptedBlob := ⟨[], x, []⟩

/-- Inverse of `trivEncBlob`. -/
def trivDecBlob (b : EncryptedBlob) : Option (List Nat) := some b.ciphertext

theorem lenTakeWhileLe {α : Type} (p : α → Bool) (l : List α) :
    (l.takeWhile p).length ≤ l.length := by
  induction l with
  | nil => simp
  | cons x t ih =>
    by_cases h : p x = true
    · simp [List.takeWhile_cons, h]
      omega
    · simp [List.takeWhile_cons, h]

theorem lenDropWhileLe {α : Type} (p : α → Bool) (l : List α) :
    (l.dropWhile p).length ≤ l.length := by
  induction l with
  | nil => simp
  | cons x t ih =>
    by_cases h : p x = true
    · simp [List.dropWhile_cons, h]
      omega
    · simp [List.dropWhile_cons, h]

theorem dropWhileFullLen {α : Type} (p : α → Bool) (l : List α)
    (h : (l.dropWhile p).length = l.length) : l.dropWhile p = l := by
  cases l with
  | nil => simp
  | cons x t =>
    by_cases hx : p x = true
    · have := lenDropWhileLe p t
      simp [List.dropWhile_cons, hx] at h
      omega
    · simp [List.dropWhile_cons, hx]

/-- A name that `path.basename` leaves unchanged contains no separator. -/
theorem basename_eq_self_slashFree (n : List Nat) (h : basenameBytes n = n) :
    (0x2F : Nat) ∉ n := by
  intro hs
  have hrev : (n.reverse.dropWhile (· = 0x2F)).takeWhile (· ≠ 0x2F) = n.reverse := by
    have h2 := congrArg List.reverse h
    simpa [basenameBytes] using h2
  have h1 := lenDropWhileLe (α := Nat) (· = 0x2F) n.reverse
  have h2 := lenTakeWhileLe (α := Nat) (· ≠ 0x2F) (n.reverse.dropWhile (· = 0x2F))
  have hlen : ((n.reverse.dropWhile (· = 0x2F)).takeWhile (· ≠ 0x2F)).length
      = n.reverse.length := by rw [hrev]
  have hdw : n.reverse.dropWhile (· = 0x2F) = n.reverse :=
    dropWhileFullLen _ _ (by omega)
  rw [hdw] at hrev
  have hall := List.takeWhile_eq_self_iff.mp hrev
  have hmem : (0x2F : Nat) ∈ n.reverse := List.mem_reverse.mpr hs
  have := hall _ hmem
  simp at this

/-- `path.basename` leaves a separator-free name unchanged. -/
theorem basename_slashFree (n : List Nat) (h : (0x2F : Nat) ∉ n) :
    basenameBytes n = n := by
  have hnot : ∀ x ∈ n.reverse, decide (x = (0x2F : Nat)) = false := by
    intro x hx
    simp only [decide_eq_false_iff_not]
    rintro rfl
    exact h (List.mem_reverse.mp hx)
  have hd : n.reverse.dropWhile (· = 0x2F) = n.reverse := by
    cases hrev : n.reverse with
    | nil => simp
    | cons x t =>
      have hx := hnot x (by rw [hrev]; exact List.mem_cons_self x t)
      simp [List.dropWhile_cons, hx]
  have ht : n.reverse.takeWhile (· ≠ 0x2F) = n.reverse := by
    apply List.takeWhile_eq_self_iff.mpr
    intro x hx
    have := hnot x hx
    simp_all
  rw [basenameBytes, hd, ht, List.reverse_reverse]

/-- C5: every write `unpackToDirectory` performs, on any buffer however
crafted, has a name free of path separators that does not start with a dot
(so no parent reference either), and stems from one complete frame of the
buffer: length fields that would overrun the buffer end the loop without a
partial write. -/
theorem unpackWrites_path_safe :
    ∀ (buf : List Nat), ∀ p ∈ unpackWrites buf,
      ((0x2F : Nat) ∉ p.1) ∧ p.1.head? ≠ some 0x2E ∧
      ∃ pre post a b c d e f g k,
        buf = pre ++ a :: b :: c :: d :: (p.1 ++ e :: f :: g :: k :: (p.2 ++ post)) ∧
        readU32 a b c d = p.1.length ∧ readU32 e f g k = p.2.length := by
  intro buf
  induction buf using unpackWrites.induct with
  | case1 buf hnone =>
    intro p hp
    rw [unpackWrites_none hnone] at hp
    exact absurd hp (List.not_mem_nil p)
  | case2 buf name data remaining hsome ih =>
    intro p hp
    rw [unpackWrites_some hsome] at hp
    obtain ⟨a, b, c, d, e, f, g, k, hdec, hlen1, hlen2⟩ :=
      readFrame_shape buf name data remaining hsome
    rcases List.mem_append.mp hp with hmem | hmem
    · by_cases hg : basenameBytes name = name ∧ name.head? ≠ some 0x2E
      · rw [if_pos hg] at hmem
        have hpeq : p = (basenameBytes name, data) := by simpa using hmem
        subst hpeq
        refine ⟨?_, ?_, [], remaining, a, b, c, d, e, f, g, k, ?_, ?_, ?_⟩
        · rw [hg.1]; exact basename_eq_self_slashFree _ hg.1
        · rw [hg.1]; exact hg.2
        · simp only [List.nil_append, hg.1]
          exact hdec
        · rw [hg.1]; exact hlen1
        · exact hlen2
      · rw [if_neg hg] at hmem
        exact absurd hmem (List.not_mem_nil p)
    · obtain ⟨hslash, hdot, pre, post, a2, b2, c2, d2, e2, f2, g2, k2, hdec2, hn2, hd2⟩ :=
        ih p hmem
      refine ⟨hslash, hdot,
        a :: b :: c :: d :: (name ++ e :: f :: g :: k :: (data ++ pre)),
        post, a2, b2, c2, d2, e2, f2, g2, k2, ?_, hn2, hd2⟩
      rw [hdec, hdec2]
      simp [List.append_assoc]

/-- Concrete run of `unpackWrites_path_safe`: a one-frame pack holding the
single file `a` (0x61) with content `b` (0x62). -/
theorem unpackWrites_path_safe_witness :
    ((([0x61], [0x62]) : List Nat × List Nat) ∈
      unpackWrites [0, 0, 0, 1, 0x61, 0, 0, 0, 1, 0x62]) ∧
    ((0x2F : Nat) ∉ (([0x61], [0x62]) : List Nat × List Nat).1 ∧
      (([0x61], [0x62]) : List Nat × List Nat).1.head? ≠ some 0x2E ∧
      ∃ pre post a b c d e f g k,
        [0, 0, 0, 1, 0x61, 0, 0, 0, 1, 0x62] =
          pre ++ a :: b :: c :: d ::
            ((([0x61], [0x62]) : List Nat × List Nat).1 ++ e :: f :: g :: k ::
              ((([0x61], [0x62]) : List Nat × List Nat).2 ++ post)) ∧
        readU32 a b c d = (([0x61], [0x62]) : List Nat × List Nat).1.length ∧
        readU32 e f g k = (([0x61], [0x62]) : List Nat × List Nat).2.length) := by
  have hmem : (([0x61], [0x62]) : List Nat × List Nat) ∈
      unpackWrites [0, 0, 0, 1, 0x61, 0, 0, 0, 1, 0x62] := by
    rw [unpackWrites_some (by rfl), unpackWrites_none (by rfl)]
    decide
  exact ⟨hmem, unpackWrites_path_safe _ _ hmem⟩

theorem readU32_u32be (n : Nat) (h : n < 4294967296) :
    readU32 (n / 16777216 % 256) (n / 65536 % 256) (n / 256 % 256) (n % 256) = n := by
  unfold readU32
  omega

/-- Reading one frame of a packed stream recovers exactly the packed name
and data and leaves the rest. -/
theorem readFrame_pack (name data rest : List Nat)
    (hL : name.length < 4294967296) (hM : data.length < 4294967296) :
    readFrame (u32be name.length ++ (name ++ (u32be data.length ++ (data ++ rest))))
      = some (name, data, rest) := by
  have hlist : u32be name.length ++ (name ++ (u32be data.length ++ (data ++ rest)))
      = (name.length / 16777216 % 256) :: (name.length / 65536 % 256) ::
        (name.length / 256 % 256) :: (name.length % 256) ::
        (name ++ (data.length / 16777216 % 256) :: (data.length / 65536 % 256) ::
          (data.length / 256 % 256) :: (data.length % 256) :: (data ++ rest)) := by
    simp [u32be]
  rw [hlist, readFrame]
  rw [readU32_u32be _ hL]
  rw [if_pos (by simp [List.length_append])]
  rw [List.drop_left]
  simp [readU32_u32be _ hM, List.take_left, List.drop_left]

/-- Unpacking a pack of well-formed plain files writes back exactly those
files, in order. -/
theorem unpack_pack (dir : List DirEntry)
    (hfile : ∀ e ∈ dir, e.isFile = true)
    (hwf : ∀ e ∈ dir, (0x2F : Nat) ∉ e.name ∧ e.name.head? ≠ some 0x2E ∧
      e.name.length < 4294967296 ∧ e.data.length < 4294967296) :
    unpackWrites (packDirectory dir) = dir.map (fun e => (e.name, e.data)) := by
  induction dir with
  | nil =>
    rw [show packDirectory [] = [] from rfl]
    rw [unpackWrites_none (by rfl)]
    rfl
  | cons e tl ih =>
    obtain ⟨hslash, hdot, hL, hM⟩ := hwf e (List.mem_cons_self e tl)
    have hshape : packDirectory (e :: tl) =
        u32be e.name.length ++ (e.name ++ (u32be e.data.length ++
          (e.data ++ packDirectory tl))) := by
      simp [packDirectory, List.filter_cons, hfile e (List.mem_cons_self e tl),
        List.append_assoc]
    rw [hshape, unpackWrites_some (readFrame_pack e.name e.data (packDirectory tl) hL hM)]
    have hbn : basenameBytes e.name = e.name := basename_slashFree e.name hslash
    rw [if_pos ⟨hbn, hdot⟩, hbn]
    rw [ih (fun x hx => hfile x (List.mem_cons_of_mem e hx))
      (fun x hx => hwf x (List.mem_cons_of_mem e hx))]
    rfl

/-- C4, counterexample: a directory holding the single dot-file `".a"`
(bytes `[0x2E, 0x61]`) imports fine, but `open()` skips the dot-prefixed
name on unpack, so the scratch directory comes back empty instead of
containing `".a"`. -/
theorem import_open_loses_dotfiles :
    openAfterImport idBytes trivEncBlob idBytes trivDecBlob
        [⟨[0x2E, 0x61], true, [49]⟩] = some [] ∧
    some ([] : List (List Nat × List Nat)) ≠
      some ([(⟨[0x2E, 0x61], true, [49]⟩ : DirEntry)].map fun e => (e.name, e.data)) := by
  constructor
  · have hpack : packDirectory [⟨[0x2E, 0x61], true, [49]⟩] =
        [0, 0, 0, 2, 0x2E, 0x61, 0, 0, 0, 1, 49] := by decide
    have hframe : readFrame [0, 0, 0, 2, 0x2E, 0x61, 0, 0, 0, 1, 49] =
        some ([0x2E, 0x61], [49], []) := by decide
    unfold openAfterImport importFromPlaintext openScratchWrites idBytes trivEncBlob
      trivDecBlob
    rw [if_neg (by decide)]
    simp only [hpack]
    rw [unpackWrites_some hframe, if_neg (by decide),
      unpackWrites_none (by rfl)]
    rfl
  · simp

/-- C4 (amended): for every non-empty directory of plain files whose names
are filename-only and do not begin with a dot (and fit the `u32be` length
fields), importing with `importFromPlaintext` and then calling `open()`
yields a scratch directory with exactly the same filenames and byte-identical
contents, given the gzip and AES-GCM round-trip laws of the external
primitives. -/
theorem openAfterImport_roundtrip
    (gz gunz : List Nat → List Nat) (enc : List Nat → EncryptedBlob)
    (dec : EncryptedBlob → Option (List Nat)) (dir : List DirEntry)
    (hgz : ∀ x, gunz (gz x) = x) (hdec : ∀ x, dec (enc x) = some x)
    (hne : dir ≠ []) (hfile : ∀ e ∈ dir, e.isFile = true)
    (hwf : ∀ e ∈ dir, (0x2F : Nat) ∉ e.name ∧ e.name.head? ≠ some 0x2E ∧
      e.name.length < 4294967296 ∧ e.data.length < 4294967296) :
    openAfterImport gz enc gunz dec dir = some (dir.map fun e => (e.name, e.data)) := by
  have hfilter : dir.filter (·.isFile) = dir := List.filter_eq_self.mpr hfile
  unfold openAfterImport importFromPlaintext openScratchWrites
  rw [hfilter, if_neg hne]
  simp only [hdec, hgz]
  rw [unpack_pack dir hfile hwf]

/-- C4 witness: the round-trip theorem applied to a one-file directory with
the trivial instantiations of the external primitives. -/
theorem openAfterImport_roundtrip_witness :
    openAfterImport idBytes trivEncBlob idBytes trivDecBlob
        [⟨[0x61], true, [49, 50]⟩] =
      some ([(⟨[0x61], true, [49, 50]⟩ : DirEntry)].map fun e => (e.name, e.data)) :=
  openAfterImport_roundtrip idBytes idBytes trivEncBlob trivDecBlob _
    (fun _ => rfl) (fun _ => rfl) (by decide) (by decide) (by decide)

/-! ## `SecureSessionStore.flush` -/

/-- The fields of `SecureSessionStore` that `flush()` consults. -/
structure SessState where
  ramDir : Option String
  isOpen : Bool
  deriving DecidableEq, Repr

/-- The on-disk world `flush()` acts on: whether the scratch directory
still exists, its current entries, and the vault file (as the blob its JSON
holds). -/
structure SessWorld where
  ramDirExists : Bool
  ramDirContents : List DirEntry
  vaultFile : Option EncryptedBlob
  deriving DecidableEq, Repr

/-- A file-system step of `flush()`. -/
inductive SessOp where
  | packDir (dir : String)
  | mkdirp (dir : String)
  | writeBlob (path : String) (blob : EncryptedBlob)
  | rename (src dst : String)
  deriving DecidableEq, Repr

/-- `SecureSessionStore.flush()`: return immediately when the store is not
open or has no scratch directory, or when the scratch directory no longer
exists on disk; otherwise pack → gzip → encrypt, ensure the vault
directory, write `<vault>.tmp` and rename it over the vault path.  Returns
the operations performed and the resulting world. -/
def flushModel (gz : List Nat → List Nat) (enc : List Nat → EncryptedBlob)
    (vaultDir accountId : String) (st : SessState) (w : SessWorld) :
    List SessOp × SessWorld :=
  match st.ramDir, st.isOpen with
  | none, _ => ([], w)
  | some _, false => ([], w)
  | some ramDir, true =>
    if w.ramDirExists = false then ([], w)
    else
      let blob := enc (gz (packDirectory w.ramDirContents))
      let vaultPath := vaultDir ++ "/" ++ accountId ++ ".vault"
      ([SessOp.packDir ramDir, SessOp.mkdirp vaultDir,
        SessOp.writeBlob (vaultPath ++ ".tmp") blob,
        SessOp.rename (vaultPath ++ ".tmp") vaultPath],
       { ramDirExists := w.ramDirExists, ramDirContents := w.ramDirContents,
         vaultFile := some blob })

/-- C10: when the store is not open (or holds no scratch path), or the
scratch directory has been removed from disk, `flush()` performs no
file-system operation at all — no pack, no write, no rename — and the world,
in particular the vault file, is unchanged. -/
theorem flush_noop_when_closed_or_missing
    (gz : List Nat → List Nat) (enc : List Nat → EncryptedBlob)
    (vaultDir accountId : String) (st : SessState) (w : SessWorld)
    (h : st.isOpen = false ∨ st.ramDir = none ∨ w.ramDirExists = false) :
    flushModel gz enc vaultDir accountId st w = ([], w) := by
  obtain ⟨rd, op⟩ := st
  rcases rd with - | dirPath
  · rfl
  · rcases op with - | -
    · rfl
    · rcases h with h | h | h
      · exact absurd h (by simp)
      · exact absurd h (by simp)
      · simp [flushModel, h]

/-- C10 witness: the no-op theorem at a concrete closed store. -/
theorem flush_noop_witness :
    flushModel idBytes trivEncBlob "channels" "acct" ⟨none, false⟩
        ⟨false, [], none⟩ = ([], ⟨false, [], none⟩) :=
  flush_noop_when_closed_or_missing idBytes trivEncBlob "channels" "acct"
    ⟨none, false⟩ ⟨false, [], none⟩ (Or.inl rfl)

/-! ## Launcher: `processAuthProfiles` (env-var injection gateway)

The launcher's `processAuthProfiles(profilePath, vault)` parses the
auth-profiles JSON, deletes every `key` field whose value starts with
`openpaw:vault:` or has the `${OPENPAW_...}` shape, records the env-var
mapping, and — only when something was deleted — rewrites the file in place
with mode `0o600`.  Other profile fields are not touched. -/

/-- One auth profile `{ type, provider, key, ... }`: the `key` and
`provider` fields the code reads, and the remaining fields kept abstract as
`(name, raw JSON value)` pairs. -/
structure AuthProfile where
  key : Option String
  provider : Option String
  rest : List (String × String)
  deriving DecidableEq, Repr

/-- The auth-profiles file `{ profiles?: { name: profile, ... } }`, key
order preserved. -/
structure AuthProfilesFile where
  profiles : Option (List (String × AuthProfile))
  deriving DecidableEq, Repr

/-- The `{ credId, provider }` record kept per environment variable. -/
structure CredentialInfo where
  credId : String
  provider : Option String
  deriving DecidableEq, Repr

/-- `String.prototype.startsWith`, computed on the character lists (the
built-in `String.startsWith` does not reduce in the kernel). -/
def listStarts : List Char → List Char → Bool
  | _, [] => true
  | [], _ :: _ => false
  | a :: s, b :: p => a = b && listStarts s p

/-- `s.startsWith(pre)`. -/
def strStarts (s pre : String) : Bool :=
  listStarts s.toList pre.toList

/-- `s.endsWith(suf)`. -/
def strEnds (s suf : String) : Bool :=
  listStarts s.toList.reverse suf.toList.reverse

/-- Drop the first `n` characters of `s`. -/
def strDrop (s : String) (n : Nat) : String :=
  String.mk (s.toList.drop n)

/-- Drop the last `n` characters of `s`. -/
def strDropRight (s : String) (n : Nat) : String :=
  String.mk (s.toList.take (s.toList.length - n))

/-- `String.prototype.toLowerCase` (ASCII). -/
def strToLower (s : String) : String :=
  String.mk (s.toList.map Char.toLower)

/-- `credIdToEnvVar`: `'OPENPAW_' + credId.toUpperCase().replace(/[^A-Z0-9]/g, '_')`. -/
def credIdToEnvVar (credId : String) : String :=
  "OPENPAW_" ++ String.mk (credId.toList.map (fun c =>
    let u := c.toUpper
    if ('A' ≤ u && u ≤ 'Z') || ('0' ≤ u && u ≤ '9') then u else '_'))

/-- `Map.prototype.set`: update in place when the key exists, else append
(insertion order preserved). -/
def mapSet (m : List (String × CredentialInfo)) (k : String) (v : CredentialInfo) :
    List (String × CredentialInfo) :=
  if m.any (fun q => q.1 = k) then m.map (fun q => if q.1 = k then (k, v) else q)
  else m ++ [(k, v)]

/-- Does this profile's `key` match one of the two reference forms the
launcher deletes? -/
def keyDeletable (p : AuthProfile) : Bool :=
  match p.key with
  | some k => strStarts k "openpaw:vault:" ||
      (strStarts k "$\x7bOPENPAW_" && strEnds k "\x7d")
  | none => false

/-- The body of the `for (const profileName of Object.keys(data.profiles))`
loop: walks the profiles, deletes matching `key` fields, accumulates the
env-var map and the `modified` flag.  `key.replace('openpaw:vault:', '')`
removes the first occurrence of the prefix, which is `drop 14` for a string
that starts with it; `key.slice(2, -1)` strips `${` and `}`, and
`.replace('OPENPAW_', '')` is `drop 8` likewise. -/
def processProfilesList :
    List (String × AuthProfile) → List (String × CredentialInfo) → Bool →
    List (String × AuthProfile) × List (String × CredentialInfo) × Bool
  | [], m, modified => ([], m, modified)
  | (nm, p) :: tl, m, modified =>
    match p.key with
    | some k =>
      if strStarts k "openpaw:vault:" then
        let credId := strDrop k 14
        let m2 := mapSet m (credIdToEnvVar credId) ⟨credId, p.provider⟩
        let r := processProfilesList tl m2 true
        ((nm, ⟨none, p.provider, p.rest⟩) :: r.1, r.2)
      else if strStarts k "$\x7bOPENPAW_" && strEnds k "\x7d" then
        let envVarName := strDropRight (strDrop k 2) 1
        let credId := strToLower (strDrop envVarName 8)
        let m2 := mapSet m envVarName ⟨credId, p.provider⟩
        let r := processProfilesList tl m2 true
        ((nm, ⟨none, p.provider, p.rest⟩) :: r.1, r.2)
      else
        let r := processProfilesList tl m modified
        ((nm, p) :: r.1, r.2)
    | none =>
      let r := processProfilesList tl m modified
      ((nm, p) :: r.1, r.2)

/-- Canonical rendering of one profile (`JSON.stringify` modulo the
abstraction of the `rest` fields as raw fragments). -/
def serializeAuthProfile (p : AuthProfile) : String :=
  "\x7b" ++ String.intercalate ", "
    (((match p.key with
       | some k => [("key", jsonStr k)]
       | none => []) ++
      (match p.provider with
       | some pr => [("provider", jsonStr pr)]
       | none => []) ++ p.rest).map (fun q => jsonStr q.1 ++ ": " ++ q.2)) ++ "\x7d"

/-- Canonical rendering of the whole auth-profiles file. -/
def serializeAuthProfilesFile (f : AuthProfilesFile) : String :=
  match f.profiles with
  | none => "\x7b\x7d"
  | some ps =>
    "\x7b \"profiles\": \x7b" ++
      String.intercalate ", "
        (ps.map (fun q => jsonStr q.1 ++ ": " ++ serializeAuthProfile q.2)) ++
    "\x7d \x7d"

/-- `processAuthProfiles`: the rewritten file, the env-var map, and the
file-system operations performed (one `writeFile` with mode `0o600 = 384`
when modified, nothing otherwise). -/
def processAuthProfiles (file : AuthProfilesFile) (profilePath : String) :
    AuthProfilesFile × List (String × CredentialInfo) × List FsOp :=
  match file.profiles with
  | none => (file, [], [])
  | some ps =>
    let r := processProfilesList ps [] false
    let f2 : AuthProfilesFile := ⟨some r.1⟩
    (f2, r.2.1,
      if r.2.2 then [FsOp.write profilePath (serializeAuthProfilesFile f2) (some 384)]
      else [])

/-- Does an operation touch the given path? -/
def touchesB : FsOp → String → Bool
  | FsOp.mkdirp p, q => p = q
  | FsOp.write p _ _, q => p = q
  | FsOp.rename a b, q => a = q || b = q
  | FsOp.copy a b, q => a = q || b = q

/-- C7, counterexample: rewriting a profiles file whose one `key` holds a
vault reference deletes the key and writes the file back, but performs no
operation on the `.bak` sibling: no backup is made before the rewrite. -/
theorem processAuthProfiles_makes_no_backup :
    (processAuthProfiles
        ⟨some [("default",
          ⟨some "openpaw:vault:cred_google_api_key_ab12", some "google",
           [("type", "\x22api\x22")]⟩)]⟩ "p.json").2.2 ≠ [] ∧
    ((processAuthProfiles
        ⟨some [("default",
          ⟨some "openpaw:vault:cred_google_api_key_ab12", some "google",
           [("type", "\x22api\x22")]⟩)]⟩ "p.json").2.2.all
      (fun op => !(touchesB op "p.json.bak"))) = true := by
  constructor
  · decide
  · decide

/-- The loop of `processAuthProfiles`: the resulting profile list deletes
exactly the matching keys, and the `modified` flag is the accumulator or-ed
with "some profile had a deletable key". -/
theorem processProfilesList_spec (ps : List (String × AuthProfile))
    (m : List (String × CredentialInfo)) (modified : Bool) :
    (processProfilesList ps m modified).1 =
      ps.map (fun np =>
        (np.1, if keyDeletable np.2 then
          ⟨none, np.2.provider, np.2.rest⟩ else np.2)) ∧
    (processProfilesList ps m modified).2.2 =
      (modified || ps.any (fun np => keyDeletable np.2)) := by
  induction ps generalizing m modified with
  | nil => simp [processProfilesList]
  | cons np tl ih =>
    obtain ⟨nm, p⟩ := np
    match hk : p.key with
    | some k =>
      by_cases h1 : strStarts k "openpaw:vault:" = true
      · have hdel : keyDeletable p = true := by simp [keyDeletable, hk, h1]
        simp only [processProfilesList, hk, h1, if_true, List.map_cons, List.any_cons,
          hdel, Bool.true_or, Bool.or_true]
        obtain ⟨ih1, ih2⟩ := ih (mapSet m (credIdToEnvVar (strDrop k 14))
          ⟨strDrop k 14, p.provider⟩) true
        refine ⟨?_, ?_⟩
        · rw [ih1]
        · rw [ih2]
          simp
      · by_cases h2 : (strStarts k "$\x7bOPENPAW_" && strEnds k "\x7d") = true
        · have hdel : keyDeletable p = true := by simp [keyDeletable, hk, h2]
          simp only [processProfilesList, hk, h1, h2, if_true, if_false,
            Bool.false_eq_true, List.map_cons, List.any_cons, hdel, Bool.true_or,
            Bool.or_true]
          obtain ⟨ih1, ih2⟩ := ih (mapSet m (strDropRight (strDrop k 2) 1)
            ⟨strToLower (strDrop (strDropRight (strDrop k 2) 1) 8), p.provider⟩) true
          refine ⟨?_, ?_⟩
          · rw [ih1]
          · rw [ih2]
            simp
        · have hdel : keyDeletable p = false := by
            simp only [keyDeletable, hk]
            rw [Bool.or_eq_false_iff]
            exact ⟨by simpa using h1, by simpa using h2⟩
          simp only [processProfilesList, hk, h1, h2, Bool.false_eq_true, if_false,
            List.map_cons, List.any_cons, hdel, Bool.false_or]
          obtain ⟨ih1, ih2⟩ := ih m modified
          exact ⟨by rw [ih1], ih2⟩
    | none =>
      have hdel : keyDeletable p = false := by simp [keyDeletable, hk]
      simp only [processProfilesList, hk, List.map_cons, List.any_cons, hdel,
        Bool.false_or]
      obtain ⟨ih1, ih2⟩ := ih m modified
      refine ⟨?_, ih2⟩
      rw [ih1]
      simp

/-- C7 (amended): the launcher's profile rewrite deletes exactly those
`key` fields whose value starts with `openpaw:vault:` or has the
`${OPENPAW_...}` shape (a bare legacy `${ENVNAME}` without the `OPENPAW_`
prefix is left alone), preserves every other field of every profile,
rewrites the file with owner-only permission `0o600` exactly when some key
was deleted (a file with no matching key is not rewritten, so rewriting an
already-rewritten profile is a successful no-op), and makes no `.bak`
backup. -/
theorem processAuthProfiles_rewrite (file : AuthProfilesFile) (path : String) :
    (processAuthProfiles file path).1.profiles =
      file.profiles.map (fun ps => ps.map (fun np =>
        (np.1, if keyDeletable np.2 then
          ⟨none, np.2.provider, np.2.rest⟩ else np.2))) ∧
    ((processAuthProfiles file path).2.2 =
      if (file.profiles.getD []).any (fun np => keyDeletable np.2) then
        [FsOp.write path
          (serializeAuthProfilesFile (processAuthProfiles file path).1) (some 384)]
      else []) ∧
    (∀ op ∈ (processAuthProfiles file path).2.2,
      touchesB op (path ++ ".bak") = false) := by
  have hne : path ≠ path ++ ".bak" := by
    intro h
    have hlen := congrArg String.length h
    rw [String.length_append, show (".bak").length = 4 from rfl] at hlen
    omega
  match hp : file.profiles with
  | none =>
    refine ⟨?_, ?_, ?_⟩
    · simp [processAuthProfiles, hp]
    · simp [processAuthProfiles, hp]
    · intro op hop
      simp [processAuthProfiles, hp] at hop
  | some ps =>
    obtain ⟨h1, h2⟩ := processProfilesList_spec ps [] false
    refine ⟨?_, ?_, ?_⟩
    · simp only [processAuthProfiles, hp]
      rw [h1]
      rfl
    · simp only [processAuthProfiles, hp, Option.getD_some]
      rw [h2]
      simp only [Bool.false_or]
    · intro op hop
      simp only [processAuthProfiles, hp] at hop
      rw [h2] at hop
      simp only [Bool.false_or] at hop
      by_cases hany : ps.any (fun np => keyDeletable np.2) = true
      · rw [hany, if_pos rfl] at hop
        have : op = FsOp.write path
            (serializeAuthProfilesFile ⟨some (processProfilesList ps [] false).1⟩)
            (some 384) := by simpa using hop
        subst this
        simpa [touchesB] using fun h => hne h
      · rw [Bool.not_eq_true] at hany
        rw [hany] at hop
        simp at hop

/-! ## Tool proxy: rate limiter and the `tools/call` policy path

From the MCP proxy module: `RateLimiter.check` and the blocklist / rate /
audit steps of `createMcpHandler` for `tools/call`.  Timestamps are
`Date.now()` milliseconds, modeled as `Int`. -/

/-- The limiter's `Map<string, number[]>`, as an insertion-ordered
association list. -/
def rlLookup (m : List (String × List Int)) (k : String) : List Int :=
  match m.find? (fun q => q.1 = k) with
  | some q => q.2
  | none => []

/-- `Map.prototype.set` for the limiter's map. -/
def rlSet (m : List (String × List Int)) (k : String) (v : List Int) :
    List (String × List Int) :=
  if m.any (fun q => q.1 = k) then m.map (fun q => if q.1 = k then (k, v) else q)
  else m ++ [(k, v)]

/-- `RateLimiter.check(key)`: read the ring, keep the timestamps younger
than the window, refuse when already at the limit (leaving the map
untouched), otherwise append `now` and store the pruned ring. -/
def rateCheck (limit : Nat) (windowMs : Int) (m : List (String × List Int))
    (key : String) (now : Int) : Bool × List (String × List Int) :=
  let timestamps := rlLookup m key
  let valid := timestamps.filter (fun t => now - t < windowMs)
  if limit ≤ valid.length then (false, m)
  else (true, rlSet m key (valid ++ [now]))

/-- The rate check as the claim words it: record the current timestamp into
the ring, drop entries older than the window, reject exactly when the
remaining count exceeds the limit — the recorded ring persists either
way. -/
def specRateCheck (limit : Nat) (windowMs : Int) (m : List (String × List Int))
    (key : String) (now : Int) : Bool × List (String × List Int) :=
  let ring := rlLookup m key ++ [now]
  let valid := ring.filter (fun t => now - t < windowMs)
  (!(limit < valid.length), rlSet m key valid)

/-- A JSON-RPC error object `{ code, message }`. -/
structure RpcError where
  code : Int
  message : String
  deriving DecidableEq, Repr

/-- The audit `status` field written for a `tools/call`. -/
inductive AuditStatus where
  | blocked
  | rateLimited
  | success
  deriving DecidableEq, Repr

/-- `{ rate_limit, rate_window, blocked_tools }`. -/
structure PolicyConfig where
  rateLimit : Nat
  rateLimitWindow : Int
  blockedTools : List String
  deriving DecidableEq, Repr

/-- The policy path of `createMcpHandler` for one `tools/call`: blocklist
first (error `-32000`, audit `blocked`), then the rate check (error `429`
`"Rate limit exceeded"`, audit `rate_limited`), else the call proceeds
(audit `success`; injection and redaction are modeled separately).  Returns
the error if any, the audit status appended, and the limiter map after the
call. -/
def handleToolCall (cfg : PolicyConfig) (toolName : String) (now : Int)
    (rl : List (String × List Int)) :
    Option RpcError × AuditStatus × List (String × List Int) :=
  if cfg.blockedTools.contains toolName then
    (some ⟨-32000, "Tool " ++ toolName ++ " is blocked by policy"⟩,
     AuditStatus.blocked, rl)
  else
    let r := rateCheck cfg.rateLimit cfg.rateLimitWindow rl toolName now
    if r.1 then (none, AuditStatus.success, r.2)
    else (some ⟨429, "Rate limit exceeded"⟩, AuditStatus.rateLimited, r.2)

/-- A sequence of `tools/call` requests processed in order, with the audit
statuses in request order. -/
def runHandlerCalls (cfg : PolicyConfig) :
    List (String × Int) → List (String × List Int) →
    List (Option RpcError × AuditStatus) × List (String × List Int)
  | [], rl => ([], rl)
  | (tool, t) :: tl, rl =>
    let r := handleToolCall cfg tool t rl
    let rest := runHandlerCalls cfg tl r.2.2
    ((r.1, r.2.1) :: rest.1, rest.2)

/-- The claim's reading of the check, run over a call sequence. -/
def runSpecChecks (limit : Nat) (win : Int) :
    List (String × Int) → List (String × List Int) →
    List Bool × List (String × List Int)
  | [], m => ([], m)
  | (k, t) :: tl, m =>
    let r := specRateCheck limit win m k t
    let rest := runSpecChecks limit win tl r.2
    (r.1 :: rest.1, rest.2)

/-- The code's check, run over a call sequence. -/
def runRateChecks (limit : Nat) (win : Int) :
    List (String × Int) → List (String × List Int) →
    List Bool × List (String × List Int)
  | [], m => ([], m)
  | (k, t) :: tl, m =>
    let r := rateCheck limit win m k t
    let rest := runRateChecks limit win tl r.2
    (r.1 :: rest.1, rest.2)

/-- C3, counterexample: the claim's check records the rejected call's
timestamp into the ring; the code's does not.  With limit 1 and window 10,
for calls at times 0, 5 and 12 the code accepts the third call (the ring
holds only the accepted `0`, which has aged out) while the claim's reading
rejects it (the rejected `5` was recorded and is still in the window). -/
theorem rateCheck_differs_from_recorded_ring :
    (runRateChecks 1 10 [("t", 0), ("t", 5), ("t", 12)] []).1 =
        [true, false, true] ∧
      (runSpecChecks 1 10 [("t", 0), ("t", 5), ("t", 12)] []).1 =
        [true, false, false] ∧
      ([true, false, true] ≠ [true, false, false]) := by
  refine ⟨by decide, by decide, by decide⟩

/-- C3 (amended): for a non-blocked tool, the rate check prunes the ring to
the entries younger than the window and rejects the call with error code
429 and audit status `rate_limited` exactly when the pruned count has
reached the limit — equivalently, when the count including the current call
exceeds the limit; the current timestamp is recorded into the ring only
when the call is admitted (a rejected call leaves the limiter map
unchanged).  In particular, with `rate_limit = 2`, of three rapid calls for
the same tool the first two succeed and the third receives code 429, with
audit statuses `success`, `success`, `rate_limited` in order. -/
theorem handleToolCall_rate_spec (cfg : PolicyConfig) (tool : String) (now : Int)
    (rl : List (String × List Int))
    (hnb : cfg.blockedTools.contains tool = false) :
    (((handleToolCall cfg tool now rl).1 = some ⟨429, "Rate limit exceeded"⟩ ∧
        (handleToolCall cfg tool now rl).2.1 = AuditStatus.rateLimited) ↔
      cfg.rateLimit ≤
        ((rlLookup rl tool).filter
          (fun t => now - t < cfg.rateLimitWindow)).length) ∧
    (cfg.rateLimit ≤
        ((rlLookup rl tool).filter
          (fun t => now - t < cfg.rateLimitWindow)).length ↔
      cfg.rateLimit <
        ((rlLookup rl tool).filter
          (fun t => now - t < cfg.rateLimitWindow)).length + 1) ∧
    ((handleToolCall cfg tool now rl).2.2 =
      if cfg.rateLimit ≤
          ((rlLookup rl tool).filter
            (fun t => now - t < cfg.rateLimitWindow)).length then rl
      else rlSet rl tool
        (((rlLookup rl tool).filter
          (fun t => now - t < cfg.rateLimitWindow)) ++ [now])) ∧
    ((runHandlerCalls ⟨2, 60000, []⟩
        [("limited-tool", 0), ("limited-tool", 0), ("limited-tool", 0)] []).1 =
      [(none, AuditStatus.success), (none, AuditStatus.success),
       (some ⟨429, "Rate limit exceeded"⟩, AuditStatus.rateLimited)]) := by
  have hmem : tool ∉ cfg.blockedTools := by simpa using hnb
  by_cases hle : cfg.rateLimit ≤
      ((rlLookup rl tool).filter (fun t => now - t < cfg.rateLimitWindow)).length
  · refine ⟨?_, by omega, ?_, by decide⟩
    · simp [handleToolCall, hnb, hmem, rateCheck, hle]
    · simp [handleToolCall, hnb, hmem, rateCheck, hle]
  · refine ⟨?_, by omega, ?_, by decide⟩
    · simp [handleToolCall, hnb, hmem, rateCheck, hle]
    · simp [handleToolCall, hnb, hmem, rateCheck, hle]

/-- C3 witness: the amended theorem at a concrete non-blocked tool and
empty limiter state. -/
theorem handleToolCall_rate_spec_witness :
    (((handleToolCall ⟨2, 60000, []⟩ "limited-tool" 0 []).1 =
          some ⟨429, "Rate limit exceeded"⟩ ∧
        (handleToolCall ⟨2, 60000, []⟩ "limited-tool" 0 []).2.1 =
          AuditStatus.rateLimited) ↔
      (⟨2, 60000, []⟩ : PolicyConfig).rateLimit ≤
        ((rlLookup [] "limited-tool").filter
          (fun t => (0 : Int) - t <
            (⟨2, 60000, []⟩ : PolicyConfig).rateLimitWindow)).length) :=
  (handleToolCall_rate_spec ⟨2, 60000, []⟩ "limited-tool" 0 [] (by decide)).1

/-! ## Vault crypto wrapper: `encrypt` / `decrypt`

`encrypt(plaintext, key)` in `packages/vault/src/index.ts` checks the key
length, draws a fresh 12-byte IV, runs AES-256-GCM, and emits
`base64(iv ‖ authTag ‖ ciphertext)`.  `decrypt` parses the layout back and
authenticates.  The AES-GCM core lives in `node:crypto`, outside this
repository; the embedding takes it as an `AeadCipher` parameter (and the
random IV as an argument), constrained in the theorems by the documented
AEAD laws.  Plaintext strings travel as their UTF-8 bytes. -/

/-- The base64 alphabet. -/
def b64Table : List Char :=
  "ABCDEFGHIJKLMNOPQRSTUVWXYZabcdefghijklmnopqrstuvwxyz0123456789+/".toList

/-- The base64 symbol for a 6-bit value. -/
def b64Char (n : Nat) : Char :=
  b64Table.getD n '?'

/-- The 6-bit value of a base64 symbol. -/
def b64Val (c : Char) : Nat :=
  b64Table.indexOf c

/-- `Buffer.prototype.toString('base64')`. -/
def b64Encode : List Nat → List Char
  | [] => []
  | [a] => [b64Char (a / 4), b64Char (a % 4 * 16), '=', '=']
  | [a, b] => [b64Char (a / 4), b64Char (a % 4 * 16 + b / 16), b64Char (b % 16 * 4), '=']
  | a :: b :: c :: rest =>
      b64Char (a / 4) :: b64Char (a % 4 * 16 + b / 16) ::
      b64Char (b % 16 * 4 + c / 64) :: b64Char (c % 64) :: b64Encode rest

/-- `Buffer.from(s, 'base64')` (padding only closes the final group, as in
every buffer the encoder emits). -/
def b64Decode : List Char → List Nat
  | c1 :: c2 :: c3 :: c4 :: rest =>
    if c3 = '=' then [b64Val c1 * 4 + b64Val c2 / 16]
    else if c4 = '=' then
      [b64Val c1 * 4 + b64Val c2 / 16, b64Val c2 % 16 * 16 + b64Val c3 / 4]
    else
      (b64Val c1 * 4 + b64Val c2 / 16) ::
      (b64Val c2 % 16 * 16 + b64Val c3 / 4) ::
      (b64Val c3 % 4 * 64 + b64Val c4) :: b64Decode rest
  | _ => []

theorem b64Val_b64Char : ∀ n < 64, b64Val (b64Char n) = n := by decide

theorem b64Char_ne_pad : ∀ n < 64, b64Char n ≠ '=' := by decide

/-- Base64 decoding inverts encoding on byte lists. -/
theorem b64_roundtrip : ∀ (bs : List Nat), bs.all (· < 256) = true →
    b64Decode (b64Encode bs) = bs := by
  intro bs
  induction bs using b64Encode.induct with
  | case1 => intro hb; rfl
  | case2 a =>
    intro hb
    simp only [List.all_cons, List.all_nil, Bool.and_true, decide_eq_true_eq] at hb
    rw [b64Encode, b64Decode, if_pos rfl]
    rw [b64Val_b64Char _ (by omega), b64Val_b64Char _ (by omega)]
    refine congrArg (fun x => [x]) ?_
    omega
  | case3 a b =>
    intro hb
    simp only [List.all_cons, List.all_nil, Bool.and_true, Bool.and_eq_true,
      decide_eq_true_eq] at hb
    obtain ⟨ha, hb2⟩ := hb
    rw [b64Encode, b64Decode]
    rw [if_neg (b64Char_ne_pad _ (by omega)), if_pos rfl]
    rw [b64Val_b64Char _ (by omega), b64Val_b64Char _ (by omega),
      b64Val_b64Char _ (by omega)]
    simp only [List.cons.injEq, and_true]
    exact ⟨by omega, by omega⟩
  | case4 a b c rest ih =>
    intro hb
    simp only [List.all_cons, decide_eq_true_eq, Bool.and_eq_true] at hb
    obtain ⟨ha, hb2, hc, hrest⟩ := hb
    rw [b64Encode, b64Decode]
    rw [if_neg (b64Char_ne_pad _ (by omega)), if_neg (b64Char_ne_pad _ (by omega))]
    rw [b64Val_b64Char _ (by omega), b64Val_b64Char _ (by omega),
      b64Val_b64Char _ (by omega), b64Val_b64Char _ (by omega)]
    rw [ih (by simpa [List.all_eq_true] using hrest)]
    simp only [List.cons.injEq, and_true]
    exact ⟨by omega, by omega, by omega⟩

/-- The AES-256-GCM core from `node:crypto`, abstracted: `enc key iv pt`
yields the ciphertext and the 16-byte auth tag
(`cipher.update ‖ cipher.final`, `cipher.getAuthTag`); `dec key iv ct tag`
yields the plaintext, or `none` when the tag does not verify
(`decipher.final` throws). -/
structure AeadCipher where
  enc : List Nat → List Nat → List Nat → List Nat × List Nat
  dec : List Nat → List Nat → List Nat → List Nat → Option (List Nat)

/-- The error cases of the vault crypto wrapper. -/
inductive CryptoError where
  | invalidKeyLength
  | ciphertextTooShort
  | authenticationFailed
  deriving DecidableEq, Repr

/-- `encrypt(plaintext, key)`: key-length check, AES-GCM, then
`base64(iv ‖ authTag ‖ ciphertext)`.  The fresh random IV is the `iv`
argument. -/
def vaultEncrypt (C : AeadCipher) (iv plaintext key : List Nat) :
    Except CryptoError (List Char) :=
  if key.length ≠ 32 then .error .invalidKeyLength
  else
    let r := C.enc key iv plaintext
    .ok (b64Encode (iv ++ (r.2 ++ r.1)))

/-- `decrypt(ciphertext, key)`: key-length check, base64 parse, minimum
length check (`iv + tag = 28` bytes), slice `iv`, `authTag`, `encrypted`,
then authenticate-and-decrypt. -/
def vaultDecrypt (C : AeadCipher) (blob : List Char) (key : List Nat) :
    Except CryptoError (List Nat) :=
  if key.length ≠ 32 then .error .invalidKeyLength
  else
    let data := b64Decode blob
    if data.length < 28 then .error .ciphertextTooShort
    else
      match C.dec key (data.take 12) (data.drop 28) ((data.drop 12).take 16) with
      | some pt => .ok pt
      | none => .error .authenticationFailed

/-- C8: for every 32-byte key, `decrypt(encrypt(P, K), K) = P`, and for
every 32-byte key K2 ≠ K under which the tag does not verify (as AES-GCM
guarantees for a wrong key), `decrypt(encrypt(P, K), K2)` fails with
`AuthenticationFailed` and returns no plaintext.  The cipher parameter is
constrained by the AEAD laws of AES-256-GCM at the used points: the tag is
16 bytes, outputs are bytes, and round-trip decryption under the same key
succeeds. -/
theorem vault_encrypt_decrypt_roundtrip
    (C : AeadCipher) (iv pt key key2 : List Nat)
    (hk : key.length = 32) (hk2 : key2.length = 32) (hiv : iv.length = 12)
    (htag : (C.enc key iv pt).2.length = 16)
    (hbytes : (iv ++ ((C.enc key iv pt).2 ++ (C.enc key iv pt).1)).all
      (· < 256) = true)
    (hrt : C.dec key iv (C.enc key iv pt).1 (C.enc key iv pt).2 = some pt)
    (hauth : key2 ≠ key →
      C.dec key2 iv (C.enc key iv pt).1 (C.enc key iv pt).2 = none) :
    ∃ blob, vaultEncrypt C iv pt key = .ok blob ∧
      vaultDecrypt C blob key = .ok pt ∧
      (key2 ≠ key →
        vaultDecrypt C blob key2 = .error .authenticationFailed) := by
  refine ⟨b64Encode (iv ++ ((C.enc key iv pt).2 ++ (C.enc key iv pt).1)), ?_, ?_, ?_⟩
  · rw [vaultEncrypt, if_neg (by omega)]
  · rw [vaultDecrypt, if_neg (by omega)]
    simp only [b64_roundtrip _ hbytes]
    rw [if_neg (by simp [List.length_append]; omega)]
    have h12 : (iv ++ ((C.enc key iv pt).2 ++ (C.enc key iv pt).1)).take 12 = iv := by
      rw [← hiv, List.take_left]
    have hdrop12 : (iv ++ ((C.enc key iv pt).2 ++ (C.enc key iv pt).1)).drop 12 =
        (C.enc key iv pt).2 ++ (C.enc key iv pt).1 := by
      rw [← hiv, List.drop_left]
    have htake16 : ((C.enc key iv pt).2 ++ (C.enc key iv pt).1).take 16 =
        (C.enc key iv pt).2 := by
      rw [← htag, List.take_left]
    have hdrop28 : (iv ++ ((C.enc key iv pt).2 ++ (C.enc key iv pt).1)).drop 28 =
        (C.enc key iv pt).1 := by
      rw [show (28 : Nat) = 12 + 16 from rfl, ← List.drop_drop, hdrop12, ← htag,
        List.drop_left]
    rw [h12, hdrop12, htake16, hdrop28, hrt]
  · intro hne
    rw [vaultDecrypt, if_neg (by omega)]
    simp only [b64_roundtrip _ hbytes]
    rw [if_neg (by simp [List.length_append]; omega)]
    have h12 : (iv ++ ((C.enc key iv pt).2 ++ (C.enc key iv pt).1)).take 12 = iv := by
      rw [← hiv, List.take_left]
    have hdrop12 : (iv ++ ((C.enc key iv pt).2 ++ (C.enc key iv pt).1)).drop 12 =
        (C.enc key iv pt).2 ++ (C.enc key iv pt).1 := by
      rw [← hiv, List.drop_left]
    have htake16 : ((C.enc key iv pt).2 ++ (C.enc key iv pt).1).take 16 =
        (C.enc key iv pt).2 := by
      rw [← htag, List.take_left]
    have hdrop28 : (iv ++ ((C.enc key iv pt).2 ++ (C.enc key iv pt).1)).drop 28 =
        (C.enc key iv pt).1 := by
      rw [show (28 : Nat) = 12 + 16 from rfl, ← List.drop_drop, hdrop12, ← htag,
        List.drop_left]
    rw [h12, hdrop12, htake16, hdrop28, hauth hne]

/-- A trivial AEAD instantiation for the witness: the ciphertext is the
plaintext and the tag is the first 16 key bytes, so a key differing in its
first 16 bytes fails authentication. -/
def toyAead : AeadCipher :=
  ⟨fun key _iv p => (p, key.take 16),
   fun key _iv c t => if t = key.take 16 then some c else none⟩

/-- C8 witness: the round-trip theorem at concrete keys, IV and plaintext,
with the hypotheses discharged on `toyAead`. -/
theorem vault_encrypt_decrypt_roundtrip_witness :
    ∃ blob, vaultEncrypt toyAead (List.replicate 12 0) [104, 105]
        (List.replicate 32 0) = .ok blob ∧
      vaultDecrypt toyAead blob (List.replicate 32 0) = .ok [104, 105] ∧
      (1 :: List.replicate 31 0 ≠ List.replicate 32 0 →
        vaultDecrypt toyAead blob (1 :: List.replicate 31 0) =
          .error .authenticationFailed) :=
  vault_encrypt_decrypt_roundtrip toyAead (List.replicate 12 0) [104, 105]
    (List.replicate 32 0) (1 :: List.replicate 31 0)
    (by decide) (by decide) (by decide) (by decide) (by decide) (by decide)
    (fun _ => by decide)

/-! ## Reference resolution: `injectCredentials`

From the MCP proxy module.  For a string, the code collects the matches of
`/\{ref:(cred_[a-zA-Z0-9_]+)\}/g` on the original string with `matchAll`,
then for each match in order replaces — `String.prototype.replace` with a
string pattern — the first occurrence of the matched literal in the current
result with the credential, when the store yields a non-empty one (the
`if (credential)` guard also drops the empty string).  Arrays and objects
recurse; other values pass through. -/

/-- The JSON value tree of `arguments`. -/
inductive Json where
  | str (s : List Char)
  | num (n : Int)
  | bool (b : Bool)
  | null
  | arr (xs : List Json)
  | obj (fields : List (String × Json))

/-- Character class `[a-zA-Z0-9_]` of the reference-id capture. -/
def isRefIdChar (c : Char) : Bool :=
  isAlnum c || c = '_'

/-- The literal text `{ref:<id>}` of a match with capture `id`. -/
def mkLit (id : List Char) : List Char :=
  '{' :: 'r' :: 'e' :: 'f' :: ':' :: (id ++ ['}'])

/-- `listStarts` on `List Char` directly (same recursion as `strStarts`). -/
theorem listStarts_decomp {s p : List Char} (h : listStarts s p = true) :
    s = p ++ s.drop p.length := by
  induction p generalizing s with
  | nil => simp
  | cons b ptl ih =>
    match s with
    | [] => exact absurd h (by simp [listStarts])
    | a :: stl =>
      simp only [listStarts, Bool.and_eq_true, decide_eq_true_eq] at h
      obtain ⟨rfl, h2⟩ := h
      simpa using ih h2

theorem listStarts_append (p d : List Char) : listStarts (p ++ d) p = true := by
  induction p with
  | nil =>
    cases d with
    | nil => rfl
    | cons x xs => rfl
  | cons b ptl ih => simpa [listStarts] using ih

/-- One attempt of the regex at the head of the string: the literal
`{ref:cred_`, then a non-empty greedy `[a-zA-Z0-9_]+` run, then `}`
(greedy is exact here because `}` is not in the class).  Returns the
captured id and the remainder after the match. -/
def tryRef (s : List Char) : Option (List Char × List Char) :=
  if listStarts s ['{', 'r', 'e', 'f', ':', 'c', 'r', 'e', 'd', '_'] then
    let rest := s.drop 10
    if rest.takeWhile isRefIdChar = [] then none
    else
      match rest.dropWhile isRefIdChar with
      | '}' :: after =>
        some ('c' :: 'r' :: 'e' :: 'd' :: '_' :: rest.takeWhile isRefIdChar, after)
      | _ => none
  else none

theorem tryRef_some_shape {s id after : List Char}
    (h : tryRef s = some (id, after)) :
    s = mkLit id ++ after ∧
    ∃ run, id = 'c' :: 'r' :: 'e' :: 'd' :: '_' :: run ∧ run ≠ [] ∧
      run.all isRefIdChar = true := by
  unfold tryRef at h
  split at h
  case isFalse => exact absurd h (by simp)
  case isTrue hpre =>
    by_cases hrun : (s.drop 10).takeWhile isRefIdChar = []
    · rw [if_pos hrun] at h
      exact absurd h (by simp)
    · rw [if_neg hrun] at h
      split at h
      · rename_i after2 hdrop
        obtain ⟨rfl, rfl⟩ : 'c' :: 'r' :: 'e' :: 'd' :: '_' ::
            (s.drop 10).takeWhile isRefIdChar = id ∧ after2 = after := by
          injection h with h2
          exact ⟨congrArg (·.1) h2, congrArg (·.2) h2⟩
        refine ⟨?_, (s.drop 10).takeWhile isRefIdChar, rfl, hrun, ?_⟩
        · have hs : s = ['{', 'r', 'e', 'f', ':', 'c', 'r', 'e', 'd', '_'] ++ s.drop 10 :=
            listStarts_decomp hpre
          have hr : (s.drop 10).takeWhile isRefIdChar ++
              (s.drop 10).dropWhile isRefIdChar = s.drop 10 :=
            List.takeWhile_append_dropWhile isRefIdChar (s.drop 10)
          rw [hdrop] at hr
          conv_lhs => rw [hs, ← hr]
          simp [mkLit]
        · simp only [List.all_eq_true]
          exact fun x hx => List.mem_takeWhile_imp hx
      · exact absurd h (by simp)

theorem tryRef_after_lt {s id after : List Char} (h : tryRef s = some (id, after)) :
    after.length < s.length := by
  obtain ⟨hdec, run, hid, -, -⟩ := tryRef_some_shape h
  subst hdec
  simp [mkLit, List.length_append]
  omega

/-- All the matches of `/\{ref:(cred_[a-zA-Z0-9_]+)\}/g` in scanning order
(leftmost, non-overlapping, continuing after each match), as
`String.prototype.matchAll` yields them: `(literal, captured id)` pairs.
The engine tries the pattern at the current position and advances one
character on failure. -/
def scanRefs (s : List Char) : List (List Char × List Char) :=
  match h : tryRef s with
  | some (id, after) => (mkLit id, id) :: scanRefs after
  | none =>
    match s with
    | [] => []
    | _ :: rest => scanRefs rest
termination_by s.length
decreasing_by
  · exact tryRef_after_lt h
  · simp

theorem scanRefs_some {s id after : List Char}
    (h : tryRef s = some (id, after)) :
    scanRefs s = (mkLit id, id) :: scanRefs after := by
  rw [scanRefs.eq_def]
  split
  · rename_i id2 after2 heq
    rw [h] at heq
    obtain ⟨rfl, rfl⟩ : id2 = id ∧ after2 = after := by
      injection heq with h2
      exact ⟨(congrArg (·.1) h2).symm, (congrArg (·.2) h2).symm⟩
    rfl
  · rename_i heq
    rw [h] at heq
    exact absurd heq (by simp)

theorem scanRefs_none_cons {c : Char} {rest : List Char}
    (h : tryRef (c :: rest) = none) :
    scanRefs (c :: rest) = scanRefs rest := by
  rw [scanRefs.eq_def]
  split
  · rename_i heq
    rw [h] at heq
    exact absurd heq (by simp)
  · rfl

theorem scanRefs_nil : scanRefs [] = [] := by
  rw [scanRefs.eq_def]
  split
  · rename_i heq
    exact absurd heq (by simp [tryRef, listStarts])
  · rfl

/-- The `$`-patterns `String.prototype.replace` expands in a replacement
string (they apply to string patterns too): `$$` a literal dollar, `$&` the
matched substring, a dollar-backquote the part before the match, a
dollar-quote the part after; any other `$`-sequence stays literal (a string
pattern has no capture groups). -/
def expandRepl (repl matched before after : List Char) : List Char :=
  match repl with
  | [] => []
  | '$' :: '$' :: rest => '$' :: expandRepl rest matched before after
  | '$' :: '&' :: rest => matched ++ expandRepl rest matched before after
  | '$' :: c :: rest =>
    if c = Char.ofNat 96 then before ++ expandRepl rest matched before after
    else if c = Char.ofNat 39 then after ++ expandRepl rest matched before after
    else '$' :: c :: expandRepl rest matched before after
  | c :: rest => c :: expandRepl rest matched before after

/-- `String.prototype.indexOf`: the position of the first occurrence of
`t`, if any. -/
def findSub : List Char → List Char → Option Nat
  | s, t =>
    if listStarts s t then some 0
    else
      match s with
      | [] => none
      | _ :: rest => (findSub rest t).map (· + 1)

/-- `String.prototype.replace` with a string pattern: replace the first
occurrence of `target`, expanding `$`-patterns in the replacement; return
the string unchanged when `target` does not occur. -/
def replaceFirstStr (s target repl : List Char) : List Char :=
  match findSub s target with
  | none => s
  | some i =>
    s.take i ++ expandRepl repl target (s.take i) (s.drop (i + target.length)) ++
      s.drop (i + target.length)

/-- The proxy's `CredentialStore.get`, as an association list lookup
(`none` models `undefined`). -/
def storeGet (store : List (List Char × List Char)) (k : List Char) :
    Option (List Char) :=
  match store.find? (fun q => q.1 = k) with
  | some q => some q.2
  | none => none

/-- The string case of `injectCredentials`: collect the matches on the
original string, then for each match in order replace the first occurrence
of its literal in the current result with the credential — skipped when the
store yields nothing or an empty string (`if (credential)`). -/
def injectString (store : List (List Char × List Char)) (s : List Char) :
    List Char :=
  (scanRefs s).foldl
    (fun result m =>
      match storeGet store m.2 with
      | some cred => if cred ≠ [] then replaceFirstStr result m.1 cred else result
      | none => result) s

mutual

/-- `injectCredentials`: strings are substituted, arrays and objects
traversed recursively (object key order preserved), other leaves returned
unchanged. -/
def injectCredentials (store : List (List Char × List Char)) : Json → Json
  | .str s => .str (injectString store s)
  | .num n => .num n
  | .bool b => .bool b
  | .null => .null
  | .arr xs => .arr (injectCredentialsList store xs)
  | .obj fs => .obj (injectCredentialsFields store fs)

/-- `Promise.all(value.map(...))` over an array. -/
def injectCredentialsList (store : List (List Char × List Char)) :
    List Json → List Json
  | [] => []
  | x :: xs => injectCredentials store x :: injectCredentialsList store xs

/-- The `Object.entries` walk over an object, key order preserved. -/
def injectCredentialsFields (store : List (List Char × List Char)) :
    List (String × Json) → List (String × Json)
  | [] => []
  | f :: fs => (f.1, injectCredentials store f.2) :: injectCredentialsFields store fs

end

/-- The claim's reading of the string case: every occurrence of
`{ref:<id>}` in the original string whose id is in the store is replaced,
in place, by that credential's plaintext; occurrences with a missing id are
left intact. -/
def specInjectString (store : List (List Char × List Char)) (s : List Char) :
    List Char :=
  match h : tryRef s with
  | some (id, after) =>
    (match storeGet store id with
     | some cred => cred
     | none => mkLit id) ++ specInjectString store after
  | none =>
    match s with
    | [] => []
    | c :: rest => c :: specInjectString store rest
termination_by s.length
decreasing_by
  · exact tryRef_after_lt h
  · simp

theorem specInjectString_some {store : List (List Char × List Char)}
    {s id after : List Char} (h : tryRef s = some (id, after)) :
    specInjectString store s =
      (match storeGet store id with
       | some cred => cred
       | none => mkLit id) ++ specInjectString store after := by
  rw [specInjectString.eq_def]
  split
  · rename_i id2 after2 heq
    rw [h] at heq
    obtain ⟨rfl, rfl⟩ : id2 = id ∧ after2 = after := by
      injection heq with h2
      exact ⟨(congrArg (·.1) h2).symm, (congrArg (·.2) h2).symm⟩
    rfl
  · rename_i heq
    rw [h] at heq
    exact absurd heq (by simp)

theorem specInjectString_none_cons {store : List (List Char × List Char)}
    {c : Char} {rest : List Char} (h : tryRef (c :: rest) = none) :
    specInjectString store (c :: rest) = c :: specInjectString store rest := by
  rw [specInjectString.eq_def]
  split
  · rename_i heq
    rw [h] at heq
    exact absurd heq (by simp)
  · rfl

theorem specInjectString_nil {store : List (List Char × List Char)} :
    specInjectString store [] = [] := by
  rw [specInjectString.eq_def]
  split
  · rename_i heq
    exact absurd heq (by simp [tryRef, listStarts])
  · rfl

mutual

/-- The claim's reading of the whole walk. -/
def specInject (store : List (List Char × List Char)) : Json → Json
  | .str s => .str (specInjectString store s)
  | .num n => .num n
  | .bool b => .bool b
  | .null => .null
  | .arr xs => .arr (specInjectList store xs)
  | .obj fs => .obj (specInjectFields store fs)

def specInjectList (store : List (List Char × List Char)) : List Json → List Json
  | [] => []
  | x :: xs => specInject store x :: specInjectList store xs

def specInjectFields (store : List (List Char × List Char)) :
    List (String × Json) → List (String × Json)
  | [] => []
  | f :: fs => (f.1, specInject store f.2) :: specInjectFields store fs

end

mutual

/-- Every string in the tree holds at most one reference occurrence. -/
def atMostOneRef : Json → Bool
  | .str s => (scanRefs s).length ≤ 1
  | .num _ => true
  | .bool _ => true
  | .null => true
  | .arr xs => atMostOneRefList xs
  | .obj fs => atMostOneRefFields fs

def atMostOneRefList : List Json → Bool
  | [] => true
  | x :: xs => atMostOneRef x && atMostOneRefList xs

def atMostOneRefFields : List (String × Json) → Bool
  | [] => true
  | f :: fs => atMostOneRef f.2 && atMostOneRefFields fs

end

/-- C2, counterexample: when a credential's plaintext itself contains text
matching the reference pattern, the sequential first-occurrence replacement
targets the re-inserted literal instead of the second original occurrence.
With `cred_a ↦ "A{ref:cred_a}"`, the string `"{ref:cred_a}{ref:cred_a}"`
resolves to `"AA{ref:cred_a}{ref:cred_a}"` in the code, while replacing
every original occurrence with the plaintext yields
`"A{ref:cred_a}A{ref:cred_a}"`. -/
theorem injectString_sequential_replace_mismatch :
    injectString [("cred_a".toList, "A{ref:cred_a}".toList)]
        "{ref:cred_a}{ref:cred_a}".toList =
      "AA{ref:cred_a}{ref:cred_a}".toList ∧
    specInjectString [("cred_a".toList, "A{ref:cred_a}".toList)]
        "{ref:cred_a}{ref:cred_a}".toList =
      "A{ref:cred_a}A{ref:cred_a}".toList ∧
    ("AA{ref:cred_a}{ref:cred_a}".toList ≠ "A{ref:cred_a}A{ref:cred_a}".toList) := by
  have h1 : tryRef "{ref:cred_a}{ref:cred_a}".toList =
      some ("cred_a".toList, "{ref:cred_a}".toList) := by decide
  have h2 : tryRef "{ref:cred_a}".toList = some ("cred_a".toList, []) := by decide
  refine ⟨?_, ?_, by decide⟩
  · rw [injectString, scanRefs_some h1, scanRefs_some h2, scanRefs_nil]
    decide
  · rw [specInjectString_some h1, specInjectString_some h2, specInjectString_nil]
    decide

theorem scanRefs_eq_nil_spec {store : List (List Char × List Char)}
    {s : List Char} (h : scanRefs s = []) : specInjectString store s = s := by
  induction s with
  | nil => exact specInjectString_nil
  | cons c rest ih =>
    match htr : tryRef (c :: rest) with
    | some (id, after) =>
      rw [scanRefs_some htr] at h
      exact absurd h (by simp)
    | none =>
      rw [scanRefs_none_cons htr] at h
      rw [specInjectString_none_cons htr, ih h]

theorem specInjectString_walk {store : List (List Char × List Char)}
    (a t : List Char)
    (h : ∀ i, i < a.length → tryRef (a.drop i ++ t) = none) :
    specInjectString store (a ++ t) = a ++ specInjectString store t := by
  induction a with
  | nil => simp
  | cons c a2 ih =>
    have h0 : tryRef (c :: (a2 ++ t)) = none := by
      have := h 0 (by simp)
      simpa using this
    rw [List.cons_append, specInjectString_none_cons h0]
    rw [ih (fun i hi => by simpa using h (i + 1) (by simpa using hi))]
    rfl

theorem tryRef_mkLit {id : List Char}
    (hwf : ∃ run, id = 'c' :: 'r' :: 'e' :: 'd' :: '_' :: run ∧ run ≠ [] ∧
      run.all isRefIdChar = true) (d : List Char) :
    tryRef (mkLit id ++ d) = some (id, d) := by
  obtain ⟨run, rfl, hne, hall⟩ := hwf
  have hshape : mkLit ('c' :: 'r' :: 'e' :: 'd' :: '_' :: run) ++ d =
      ['{', 'r', 'e', 'f', ':', 'c', 'r', 'e', 'd', '_'] ++ (run ++ '}' :: d) := by
    simp [mkLit]
  rw [hshape]
  unfold tryRef
  rw [if_pos (listStarts_append _ _)]
  have hdrop10 : (['{', 'r', 'e', 'f', ':', 'c', 'r', 'e', 'd', '_'] ++
      (run ++ '}' :: d)).drop 10 = run ++ '}' :: d := by
    rw [show (10 : Nat) =
      (['{', 'r', 'e', 'f', ':', 'c', 'r', 'e', 'd', '_'] : List Char).length from rfl,
      List.drop_left]
  rw [hdrop10]
  have hallmem : ∀ x ∈ run, isRefIdChar x = true := by
    simpa [List.all_eq_true] using hall
  have htake : (run ++ '}' :: d).takeWhile isRefIdChar = run := by
    rw [List.takeWhile_append_of_pos hallmem]
    simp [List.takeWhile_cons, show isRefIdChar (Char.ofNat 125) = false from by decide]
  have hdw : (run ++ '}' :: d).dropWhile isRefIdChar = '}' :: d := by
    rw [List.dropWhile_append_of_pos hallmem]
    simp [List.dropWhile_cons, show isRefIdChar (Char.ofNat 125) = false from by decide]
  simp only [htake, hdw]
  rw [if_neg (by simpa using hne)]

theorem expandRepl_no_dollar {repl m b a : List Char} (h : ('$' : Char) ∉ repl) :
    expandRepl repl m b a = repl := by
  induction repl with
  | nil => rfl
  | cons c rest ih =>
    have hc : c ≠ '$' := fun hcc => h (hcc ▸ List.mem_cons_self c rest)
    have hrest : ('$' : Char) ∉ rest := fun hr => h (List.mem_cons_of_mem c hr)
    rw [expandRepl.eq_def]
    split
    · rename_i heq
      exact absurd heq (by simp)
    · rename_i rest2 heq
      injection heq with ha hb
      exact absurd ha hc
    · rename_i rest2 heq
      injection heq with ha hb
      exact absurd ha hc
    · rename_i c2 rest2 heq
      injection heq with ha hb
      exact absurd ha hc
    · rename_i c2 rest2 h1 h2 h3 heq
      obtain ⟨rfl, rfl⟩ : c2 = c ∧ rest2 = rest := by
        injection heq with ha hb
        exact ⟨ha.symm, hb.symm⟩
      rw [ih hrest]

theorem findSub_unfold (s t : List Char) : findSub s t =
    if listStarts s t then some 0
    else
      match s with
      | [] => none
      | _ :: rest => (findSub rest t).map (· + 1) := by
  rw [findSub.eq_def]

theorem findSub_at {a t after : List Char}
    (h : ∀ q, q < a.length → listStarts ((a ++ (t ++ after)).drop q) t = false) :
    findSub (a ++ (t ++ after)) t = some a.length := by
  induction a with
  | nil =>
    rw [List.nil_append, findSub_unfold]
    rw [if_pos (by simpa using listStarts_append t after)]
    rfl
  | cons c a2 ih =>
    have h0 : listStarts (c :: (a2 ++ (t ++ after))) t = false := by
      simpa using h 0 (by simp)
    have ih2 := ih (fun q hq => by
      have := h (q + 1) (by simp; omega)
      simpa using this)
    rw [List.cons_append, findSub_unfold]
    rw [if_neg (by simp [h0])]
    show (findSub (a2 ++ (t ++ after)) t).map (· + 1) = some (c :: a2).length
    rw [ih2]
    rfl

theorem replaceFirstStr_at {a t after repl : List Char}
    (h : ∀ q, q < a.length → listStarts ((a ++ (t ++ after)).drop q) t = false) :
    replaceFirstStr (a ++ (t ++ after)) t repl =
      a ++ expandRepl repl t a after ++ after := by
  have htake : (a ++ (t ++ after)).take a.length = a := List.take_left a _
  have hdrop : (a ++ (t ++ after)).drop (a.length + t.length) = after := by
    rw [← List.append_assoc, ← List.length_append, List.drop_left]
  simp only [replaceFirstStr, findSub_at h, htake, hdrop]

theorem storeGet_mem {store : List (List Char × List Char)}
    {k v : List Char} (h : storeGet store k = some v) :
    ∃ kv ∈ store, kv.2 = v := by
  unfold storeGet at h
  split at h
  · rename_i q hf
    exact ⟨q, List.mem_of_find?_eq_some hf, Option.some.inj h⟩
  · exact absurd h (by simp)

theorem scanRefs_decomp {s lit id : List Char} {ms : List (List Char × List Char)}
    (h : scanRefs s = (lit, id) :: ms) :
    lit = mkLit id ∧
    (∃ run, id = 'c' :: 'r' :: 'e' :: 'd' :: '_' :: run ∧ run ≠ [] ∧
      run.all isRefIdChar = true) ∧
    ∃ a after, s = a ++ (mkLit id ++ after) ∧ scanRefs after = ms ∧
      ∀ i, i < a.length → tryRef (s.drop i) = none := by
  induction s with
  | nil =>
    rw [scanRefs_nil] at h
    exact absurd h (by simp)
  | cons c rest ih =>
    match htr : tryRef (c :: rest) with
    | some (id2, after2) =>
      rw [scanRefs_some htr] at h
      injection h with h1 h2
      obtain ⟨rfl, rfl⟩ : lit = mkLit id2 ∧ id = id2 := by
        refine ⟨(congrArg (·.1) h1).symm, (congrArg (·.2) h1).symm⟩
      obtain ⟨hdec, hwf⟩ := tryRef_some_shape htr
      exact ⟨rfl, hwf, [], after2, by simpa using hdec, h2, by simp⟩
    | none =>
      rw [scanRefs_none_cons htr] at h
      obtain ⟨h1, hwf, a, after, hdec, hms, hcond⟩ := ih h
      refine ⟨h1, hwf, c :: a, after, by simp [hdec], hms, ?_⟩
      intro i hi
      match i with
      | 0 => simpa using htr
      | i + 1 =>
        have : rest.drop i = (a ++ (mkLit id ++ after)).drop i := by rw [hdec]
        simpa [this, ← hdec] using hcond i (by simpa using Nat.lt_of_succ_lt_succ hi)

/-- The string-level part of the amended C2: when the string holds at most
one reference occurrence and the store's plaintexts are non-empty and free
of `$`, the sequential replacement coincides with replacing each original
occurrence in place. -/
theorem injectString_single (store : List (List Char × List Char)) (s : List Char)
    (hstore : ∀ kv ∈ store, kv.2 ≠ [] ∧ ('$' : Char) ∉ kv.2)
    (hle : (scanRefs s).length ≤ 1) :
    injectString store s = specInjectString store s := by
  match hscan : scanRefs s with
  | [] =>
    rw [injectString, hscan]
    simp only [List.foldl_nil]
    rw [scanRefs_eq_nil_spec hscan]
  | (lit, id) :: ms =>
    have hms : ms = [] := by
      rw [hscan] at hle
      simp only [List.length_cons] at hle
      exact List.eq_nil_of_length_eq_zero (by omega)
    subst hms
    obtain ⟨rfl, hwf, a, after, hdec, hafter, hcond⟩ := scanRefs_decomp hscan
    have hwalkcond : ∀ i, i < a.length →
        tryRef (a.drop i ++ (mkLit id ++ after)) = none := by
      intro i hi
      have hdrop : s.drop i = a.drop i ++ (mkLit id ++ after) := by
        rw [hdec]
        exact List.drop_append_of_le_length (Nat.le_of_lt hi)
      rw [← hdrop]
      exact hcond i hi
    have hnostart : ∀ q, q < a.length →
        listStarts ((a ++ (mkLit id ++ after)).drop q) (mkLit id) = false := by
      intro q hq
      by_contra hb
      rw [Bool.not_eq_false] at hb
      have hd := listStarts_decomp hb
      have htr := tryRef_mkLit hwf
        (((a ++ (mkLit id ++ after)).drop q).drop (mkLit id).length)
      rw [← hd] at htr
      have := hcond q hq
      rw [hdec] at this
      rw [this] at htr
      exact absurd htr (by simp)
    have hspec : specInjectString store s =
        a ++ ((match storeGet store id with
          | some cred => cred
          | none => mkLit id) ++ after) := by
      rw [hdec, specInjectString_walk a (mkLit id ++ after) hwalkcond,
        specInjectString_some (tryRef_mkLit hwf after),
        scanRefs_eq_nil_spec hafter]
    rw [injectString, hscan]
    simp only [List.foldl_cons, List.foldl_nil]
    match hget : storeGet store id with
    | none =>
      simp only [hget]
      rw [hspec, hget]
      exact hdec
    | some cred =>
      obtain ⟨kv, hkv, hkv2⟩ := storeGet_mem hget
      have hcred := hstore kv hkv
      rw [hkv2] at hcred
      simp only [hget]
      rw [if_pos hcred.1]
      rw [hspec, hget]
      rw [hdec, replaceFirstStr_at hnostart, expandRepl_no_dollar hcred.2]
      simp [List.append_assoc]

mutual

theorem injectGo (store : List (List Char × List Char))
    (hstore : ∀ kv ∈ store, kv.2 ≠ [] ∧ ('$' : Char) ∉ kv.2) :
    ∀ j : Json, atMostOneRef j = true →
      injectCredentials store j = specInject store j
  | .str s, h => by
    simp only [injectCredentials, specInject]
    exact congrArg Json.str
      (injectString_single store s hstore (by simpa [atMostOneRef] using h))
  | .num _, _ => rfl
  | .bool _, _ => rfl
  | .null, _ => rfl
  | .arr xs, h => by
    simp only [injectCredentials, specInject,
      injectListGo store hstore xs (by simpa [atMostOneRef] using h)]
  | .obj fs, h => by
    simp only [injectCredentials, specInject,
      injectFieldsGo store hstore fs (by simpa [atMostOneRef] using h)]

theorem injectListGo (store : List (List Char × List Char))
    (hstore : ∀ kv ∈ store, kv.2 ≠ [] ∧ ('$' : Char) ∉ kv.2) :
    ∀ xs : List Json, atMostOneRefList xs = true →
      injectCredentialsList store xs = specInjectList store xs
  | [], _ => rfl
  | x :: xs, h => by
    have h2 : atMostOneRef x = true ∧ atMostOneRefList xs = true := by
      simpa [atMostOneRefList, Bool.and_eq_true] using h
    simp only [injectCredentialsList, specInjectList,
      injectGo store hstore x h2.1, injectListGo store hstore xs h2.2]

theorem injectFieldsGo (store : List (List Char × List Char))
    (hstore : ∀ kv ∈ store, kv.2 ≠ [] ∧ ('$' : Char) ∉ kv.2) :
    ∀ fs : List (String × Json), atMostOneRefFields fs = true →
      injectCredentialsFields store fs = specInjectFields store fs
  | [], _ => rfl
  | f :: fs, h => by
    have h2 : atMostOneRef f.2 = true ∧ atMostOneRefFields fs = true := by
      simpa [atMostOneRefFields, Bool.and_eq_true] using h
    simp only [injectCredentialsFields, specInjectFields,
      injectGo store hstore f.2 h2.1, injectFieldsGo store hstore fs h2.2]

end

/-- C2 (amended): reference resolution deep-walks the arguments value,
substituting in strings and traversing arrays and objects recursively with
object key order preserved and other leaves unchanged. Provided the
credential plaintexts in scope are non-empty and contain no `$` character,
and each string of the tree holds at most one `\x7bref:<id>\x7d` occurrence,
the sequential first-occurrence replacement implemented by
`injectCredentials` agrees with the claim's reading (`specInject`): each
original occurrence whose id is present in the store is replaced in place by
the plaintext, and occurrences with a missing id are left intact. (Without
the proviso the two disagree — see the counterexample: a plaintext that
itself contains the reference literal makes the second replacement target
the re-inserted text.) -/
theorem injectCredentials_eq_spec (store : List (List Char × List Char))
    (j : Json)
    (hstore : ∀ kv ∈ store, kv.2 ≠ [] ∧ ('$' : Char) ∉ kv.2)
    (hone : atMostOneRef j = true) :
    injectCredentials store j = specInject store j :=
  injectGo store hstore j hone

/-- Concrete run of `injectCredentials_eq_spec`: one stored credential,
one object argument holding one reference. -/
theorem injectCredentials_eq_spec_witness :
    (∀ kv ∈ ([(['c','r','e','d','_','a'], ['t','o','p'])] :
        List (List Char × List Char)), kv.2 ≠ [] ∧ ('$' : Char) ∉ kv.2) ∧
    atMostOneRef (Json.obj [("token",
      Json.str ['{','r','e','f',':','c','r','e','d','_','a','}'])]) = true ∧
    injectCredentials [(['c','r','e','d','_','a'], ['t','o','p'])]
        (Json.obj [("token",
          Json.str ['{','r','e','f',':','c','r','e','d','_','a','}'])]) =
      specInject [(['c','r','e','d','_','a'], ['t','o','p'])]
        (Json.obj [("token",
          Json.str ['{','r','e','f',':','c','r','e','d','_','a','}'])]) := by
  have htr : tryRef ['{','r','e','f',':','c','r','e','d','_','a','}'] =
      some (['c','r','e','d','_','a'], []) := by decide
  have hscan : scanRefs ['{','r','e','f',':','c','r','e','d','_','a','}'] =
      [(mkLit ['c','r','e','d','_','a'], ['c','r','e','d','_','a'])] := by
    rw [scanRefs_some htr, scanRefs_nil]
  have h1 : ∀ kv ∈ ([(['c','r','e','d','_','a'], ['t','o','p'])] :
      List (List Char × List Char)), kv.2 ≠ [] ∧ ('$' : Char) ∉ kv.2 := by
    decide
  have h2 : atMostOneRef (Json.obj [("token",
      Json.str ['{','r','e','f',':','c','r','e','d','_','a','}'])]) = true := by
    simp only [atMostOneRef, atMostOneRefFields, hscan]
    decide
  exact ⟨h1, h2, injectCredentials_eq_spec _ _ h1 h2⟩

/-! ## Token redaction: `redactTokens`

`TOKEN_PATTERNS` in the proxy module is the list of five global regexes

* `/sk-[a-zA-Z0-9]{20,}/g`
* `/ghp_[a-zA-Z0-9]{35,}/g`
* `/xox[baprs]-[a-zA-Z0-9-]+/g`
* `/api_[a-zA-Z0-9_-]{20,}/gi`
* `/Bearer\s+[a-zA-Z0-9._-]+/g`

and `redactTokens` folds over them, replacing every match of each in turn
with the literal `[REDACTED]`.  Each of the five patterns is a fixed
character-by-character prefix (a list of character predicates — a predicate
rather than a character so the case-insensitive `i` flag of the `api_`
pattern and the `[baprs]` class are representable) followed by greedy
character-class runs with a minimum repetition count.  For these patterns
the greedy left-to-right scan without backtracking coincides with the JS
regex semantics: the single-run patterns match iff the maximal class run
reaches the minimum, and in the `Bearer` pattern the `\s` class and the
token class are disjoint, so giving back whitespace characters can never
make the token run succeed. -/

/-- A compiled token pattern: literal prefix predicates, then greedy
`(class, minimum)` runs. -/
structure CPat where
  lits : List (Char → Bool)
  runs : List ((Char → Bool) × Nat)

/-- Prefix literal: the single character `a` (`c = a`). -/
def litEq (a c : Char) : Bool := c = a

/-- The JS `\s` class: whitespace and line terminators. -/
def isJsSpace (c : Char) : Bool :=
  c = ' ' || c = '\t' || c = '\n' || c = Char.ofNat 0x0B || c = Char.ofNat 0x0C ||
  c = '\r' || c = Char.ofNat 0xA0 || c = Char.ofNat 0x1680 ||
  (Char.ofNat 0x2000 ≤ c && c ≤ Char.ofNat 0x200A) ||
  c = Char.ofNat 0x2028 || c = Char.ofNat 0x2029 || c = Char.ofNat 0x202F ||
  c = Char.ofNat 0x205F || c = Char.ofNat 0x3000 || c = Char.ofNat 0xFEFF

/-- The class `[a-zA-Z0-9-]` of the Slack pattern. -/
def slackClass (c : Char) : Bool := isAlnum c || c = '-'

/-- The class `[a-zA-Z0-9_-]` of the generic `api_` pattern. -/
def apiClass (c : Char) : Bool := isAlnum c || c = '_' || c = '-'

/-- The class `[a-zA-Z0-9._-]` of the `Bearer` pattern. -/
def bearerClass (c : Char) : Bool := isAlnum c || c = '.' || c = '_' || c = '-'

/-- `/sk-[a-zA-Z0-9]{20,}/g`. -/
def skPat : CPat := ⟨[litEq 's', litEq 'k', litEq '-'], [(isAlnum, 20)]⟩

/-- `/ghp_[a-zA-Z0-9]{35,}/g`. -/
def ghpPat : CPat := ⟨[litEq 'g', litEq 'h', litEq 'p', litEq '_'], [(isAlnum, 35)]⟩

/-- `/xox[baprs]-[a-zA-Z0-9-]+/g`. -/
def xoxPat : CPat :=
  ⟨[litEq 'x', litEq 'o', litEq 'x',
    fun c => c = 'b' || c = 'a' || c = 'p' || c = 'r' || c = 's', litEq '-'],
   [(slackClass, 1)]⟩

/-- `/api_[a-zA-Z0-9_-]{20,}/gi` — the `i` flag makes the literal prefix
match either case (the class is already case-closed). -/
def apiPat : CPat :=
  ⟨[fun c => c = 'a' || c = 'A', fun c => c = 'p' || c = 'P',
    fun c => c = 'i' || c = 'I', litEq '_'],
   [(apiClass, 20)]⟩

/-- `/Bearer\s+[a-zA-Z0-9._-]+/g`. -/
def bearerPat : CPat :=
  ⟨[litEq 'B', litEq 'e', litEq 'a', litEq 'r', litEq 'e', litEq 'r'],
   [(isJsSpace, 1), (bearerClass, 1)]⟩

/-- The replacement literal `'[REDACTED]'`. -/
def redactedLit : List Char := ['[', 'R', 'E', 'D', 'A', 'C', 'T', 'E', 'D', ']']

/-- Match the literal prefix: each predicate must accept the next
character; returns the consumed prefix and the remainder. -/
def matchLits : List (Char → Bool) → List Char → Option (List Char × List Char)
  | [], s => some ([], s)
  | _ :: _, [] => none
  | f :: fs, c :: s =>
    if f c then (matchLits fs s).map (fun q => (c :: q.1, q.2)) else none

/-- Match the greedy class runs: each run takes the maximal block of
characters in its class and requires at least its minimum count. -/
def matchRuns : List ((Char → Bool) × Nat) → List Char → Option (List Char × List Char)
  | [], s => some ([], s)
  | (f, n) :: rs, s =>
    if n ≤ (s.takeWhile f).length then
      (matchRuns rs (s.dropWhile f)).map (fun q => (s.takeWhile f ++ q.1, q.2))
    else none

/-- Match a pattern at the start of `s`: prefix then runs; returns the
matched text and the remainder. -/
def matchAt (p : CPat) (s : List Char) : Option (List Char × List Char) :=
  match matchLits p.lits s with
  | some (a, s1) =>
    match matchRuns p.runs s1 with
    | some (b, s2) => some (a ++ b, s2)
    | none => none
  | none => none

/-- `String.prototype.replace` with a `g`-flagged regex: scan left to
right; at each position either replace the leftmost match and continue
after it, or move one character on.  The two `else` arms mirror the JS
empty-match handling (insert the replacement and advance one character);
for the token patterns the prefix is non-empty so a match never has the
same remainder and those arms are unreachable. -/
def replaceAllP (p : CPat) (repl : List Char) : List Char → List Char
  | [] =>
    match matchAt p [] with
    | some _ => repl
    | none => []
  | c :: rest =>
    match matchAt p (c :: rest) with
    | some (_, after) =>
      if _hlt : after.length < rest.length + 1 then repl ++ replaceAllP p repl after
      else repl ++ c :: replaceAllP p repl rest
    | none => c :: replaceAllP p repl rest
termination_by s => s.length
decreasing_by
  all_goals simp
  omega

/-- `TOKEN_PATTERNS`, in declaration order. -/
def TOKEN_PATTERNS : List CPat := [skPat, ghpPat, xoxPat, apiPat, bearerPat]

/-- `redactTokens(text)`: fold the replacement over the pattern list. -/
def redactTokens (text : List Char) : List Char :=
  TOKEN_PATTERNS.foldl (fun redacted p => replaceAllP p redactedLit redacted) text

/-- No pattern with a non-trivial prefix matches the empty string. -/
theorem matchAt_nil {q : CPat} (hq : q.lits ≠ []) : matchAt q [] = none := by
  unfold matchAt
  cases hl : q.lits with
  | nil => exact absurd hl hq
  | cons f fs => rfl

theorem replaceAllP_nil {p : CPat} {repl : List Char}
    (h : matchAt p [] = none) : replaceAllP p repl [] = [] := by
  rw [replaceAllP.eq_1, h]

theorem replaceAllP_match {p : CPat} {repl : List Char} {c : Char}
    {rest m after : List Char}
    (h : matchAt p (c :: rest) = some (m, after))
    (hlt : after.length < rest.length + 1) :
    replaceAllP p repl (c :: rest) = repl ++ replaceAllP p repl after := by
  rw [replaceAllP.eq_2, h]
  exact dif_pos hlt

theorem replaceAllP_nomatch {p : CPat} {repl : List Char} {c : Char}
    {rest : List Char} (h : matchAt p (c :: rest) = none) :
    replaceAllP p repl (c :: rest) = c :: replaceAllP p repl rest := by
  rw [replaceAllP.eq_2, h]

/-- The consumed prefix of a successful literal match: the input splits,
the prefix length is the predicate count, and the same prefix matches in
front of any remainder. -/
theorem matchLits_decomp : ∀ {fs : List (Char → Bool)} {l m r : List Char},
    matchLits fs l = some (m, r) →
    l = m ++ r ∧ m.length = fs.length ∧ ∀ t, matchLits fs (m ++ t) = some (m, t) := by
  intro fs
  induction fs with
  | nil =>
    intro l m r h
    simp only [matchLits, Option.some.injEq, Prod.mk.injEq] at h
    obtain ⟨h1, h2⟩ := h
    subst h1; subst h2
    exact ⟨by simp, by simp, fun t => by simp [matchLits]⟩
  | cons f fs ih =>
    intro l m r h
    match l with
    | [] => exact absurd h (by simp [matchLits])
    | c :: l2 =>
      by_cases hc : f c
      · rw [matchLits, if_pos hc] at h
        match hin : matchLits fs l2 with
        | none => rw [hin] at h; exact absurd h (by simp)
        | some (m2, r2) =>
          rw [hin] at h
          simp only [Option.map_some', Option.some.injEq, Prod.mk.injEq] at h
          obtain ⟨h1, h2⟩ := h
          subst h2
          obtain ⟨hd, hl, hall⟩ := ih hin
          refine ⟨by rw [← h1, hd]; simp, by rw [← h1]; simp [hl], fun t => ?_⟩
          rw [← h1]
          simp only [List.cons_append, matchLits, if_pos hc]
          simp [hall t]
      · rw [matchLits, if_neg hc] at h
        exact absurd h (by simp)

theorem matchRuns_decomp : ∀ {rs : List ((Char → Bool) × Nat)} {l b r : List Char},
    matchRuns rs l = some (b, r) → l = b ++ r := by
  intro rs
  induction rs with
  | nil =>
    intro l b r h
    simp only [matchRuns, Option.some.injEq, Prod.mk.injEq] at h
    obtain ⟨h1, h2⟩ := h
    subst h1; subst h2
    simp
  | cons q rs ih =>
    obtain ⟨f, n⟩ := q
    intro l b r h
    rw [matchRuns] at h
    by_cases hn : n ≤ (l.takeWhile f).length
    · rw [if_pos hn] at h
      match hin : matchRuns rs (l.dropWhile f) with
      | none => rw [hin] at h; exact absurd h (by simp)
      | some (b2, r2) =>
        rw [hin] at h
        simp only [Option.map_some', Option.some.injEq, Prod.mk.injEq] at h
        obtain ⟨h1, h2⟩ := h
        subst h2
        have hd := ih hin
        rw [← h1, List.append_assoc, ← hd, List.takeWhile_append_dropWhile]
    · rw [if_neg hn] at h
      exact absurd h (by simp)

/-- A successful pattern match splits the input and consumes at least the
literal prefix. -/
theorem matchAt_decomp {p : CPat} {s m after : List Char}
    (h : matchAt p s = some (m, after)) :
    s = m ++ after ∧ p.lits.length ≤ m.length := by
  unfold matchAt at h
  split at h
  · rename_i a s1 heq1
    split at h
    · rename_i b s2 heq2
      simp only [Option.some.injEq, Prod.mk.injEq] at h
      obtain ⟨h1, h2⟩ := h
      subst h2
      obtain ⟨hd1, hl1, _⟩ := matchLits_decomp heq1
      have hd2 := matchRuns_decomp heq2
      constructor
      · rw [hd1, hd2, ← h1, List.append_assoc]
      · rw [← h1]
        simp [← hl1]
    · exact absurd h (by simp)
  · exact absurd h (by simp)

theorem takeWhile_append_bracket {f : Char → Bool} (hf : f '[' = false)
    (a z : List Char) : ((a ++ '[' :: z).takeWhile f) = a.takeWhile f := by
  induction a with
  | nil => simp [List.takeWhile_cons, hf]
  | cons c a ih => by_cases hc : f c <;> simp [List.takeWhile_cons, hc, ih]

theorem dropWhile_append_bracket {f : Char → Bool} (hf : f '[' = false)
    (a z : List Char) :
    ((a ++ '[' :: z).dropWhile f) = a.dropWhile f ++ '[' :: z := by
  induction a with
  | nil => simp [List.dropWhile_cons, hf]
  | cons c a ih => by_cases hc : f c <;> simp [List.dropWhile_cons, hc, ih]

theorem takeWhile_append_stop {f : Char → Bool} {a : List Char}
    (h : a.dropWhile f ≠ []) (w : List Char) :
    ((a ++ w).takeWhile f) = a.takeWhile f ∧
    ((a ++ w).dropWhile f) = a.dropWhile f ++ w := by
  induction a with
  | nil => simp at h
  | cons c a ih =>
    by_cases hc : f c
    · have h2 : a.dropWhile f ≠ [] := by simpa [List.dropWhile_cons, hc] using h
      obtain ⟨h3, h4⟩ := ih h2
      simp [List.takeWhile_cons, List.dropWhile_cons, hc, h3, h4]
    · simp [List.takeWhile_cons, List.dropWhile_cons, hc]

theorem takeWhile_append_all {f : Char → Bool} {a : List Char}
    (h : a.dropWhile f = []) (w : List Char) :
    ((a ++ w).takeWhile f) = a ++ w.takeWhile f ∧
    ((a ++ w).dropWhile f) = w.dropWhile f := by
  induction a with
  | nil => simp
  | cons c a ih =>
    by_cases hc : f c
    · have h2 : a.dropWhile f = [] := by simpa [List.dropWhile_cons, hc] using h
      obtain ⟨h3, h4⟩ := ih h2
      simp [List.takeWhile_cons, List.dropWhile_cons, hc, h3, h4]
    · simp [List.dropWhile_cons, hc] at h

/-- Greedy runs never read past a `[` (no class accepts it), so a run
sequence that succeeds against a bracket barrier also succeeds when the
barrier is replaced by anything else. -/
theorem matchRuns_bracket_any {rs : List ((Char → Bool) × Nat)}
    (hrs : ∀ r ∈ rs, r.1 '[' = false) :
    ∀ a z w : List Char, matchRuns rs (a ++ '[' :: z) ≠ none →
      matchRuns rs (a ++ w) ≠ none := by
  induction rs with
  | nil =>
    intro a z w _
    simp [matchRuns]
  | cons q rs ih =>
    obtain ⟨f, n⟩ := q
    have hf : f '[' = false := by simpa using hrs (f, n) (List.mem_cons_self _ _)
    have hrs2 : ∀ r ∈ rs, r.1 '[' = false :=
      fun r hr => hrs r (List.mem_cons_of_mem _ hr)
    intro a z w h
    rw [matchRuns] at h
    rw [takeWhile_append_bracket hf, dropWhile_append_bracket hf] at h
    by_cases hn : n ≤ (a.takeWhile f).length
    · rw [if_pos hn] at h
      have hinner : matchRuns rs (a.dropWhile f ++ '[' :: z) ≠ none := by
        intro hc
        rw [hc] at h
        simp at h
      rw [matchRuns]
      by_cases h0 : a.dropWhile f = []
      · have hta : a.takeWhile f = a := by
          have h3 := List.takeWhile_append_dropWhile f a
          rw [h0, List.append_nil] at h3
          exact h3
        obtain ⟨ht1, ht2⟩ := takeWhile_append_all h0 w
        rw [ht1, ht2]
        rw [if_pos (by rw [List.length_append]; rw [hta] at hn; omega)]
        have h4 : matchRuns rs ([] ++ '[' :: z) ≠ none := by
          rw [h0] at hinner
          exact hinner
        have h5 := ih hrs2 [] z (w.dropWhile f) h4
        simp only [List.nil_append] at h5
        intro hc
        exact h5 (Option.map_eq_none'.mp hc)
      · obtain ⟨ht1, ht2⟩ := takeWhile_append_stop h0 w
        rw [ht1, ht2, if_pos hn]
        have h5 := ih hrs2 (a.dropWhile f) z w hinner
        intro hc
        exact h5 (Option.map_eq_none'.mp hc)
    · rw [if_neg hn] at h
      exact absurd rfl h

/-- A literal prefix that cannot accept `[` and succeeds against a bracket
barrier consumed only characters in front of the barrier. -/
theorem matchLits_bracket {fs : List (Char → Bool)}
    (hfs : ∀ f ∈ fs, f '[' = false) :
    ∀ {a z m r : List Char}, matchLits fs (a ++ '[' :: z) = some (m, r) →
      ∃ a2, a = m ++ a2 ∧ r = a2 ++ '[' :: z := by
  induction fs with
  | nil =>
    intro a z m r h
    simp only [matchLits, Option.some.injEq, Prod.mk.injEq] at h
    obtain ⟨h1, h2⟩ := h
    subst h1
    exact ⟨a, by simp, h2.symm⟩
  | cons f fs ih =>
    have hf : f '[' = false := by simpa using hfs f (List.mem_cons_self _ _)
    have hfs2 : ∀ g ∈ fs, g '[' = false :=
      fun g hg => hfs g (List.mem_cons_of_mem _ hg)
    intro a z m r h
    match a with
    | [] =>
      rw [List.nil_append, matchLits, if_neg (by simp [hf])] at h
      exact absurd h (by simp)
    | c :: a2 =>
      rw [List.cons_append, matchLits] at h
      by_cases hc : f c
      · rw [if_pos hc] at h
        match hin : matchLits fs (a2 ++ '[' :: z) with
        | none => rw [hin] at h; exact absurd h (by simp)
        | some (m2, r2) =>
          rw [hin] at h
          simp only [Option.map_some', Option.some.injEq, Prod.mk.injEq] at h
          obtain ⟨h1, h2⟩ := h
          subst h2
          obtain ⟨a3, ha, hr⟩ := ih hfs2 hin
          exact ⟨a3, by rw [← h1, ha]; simp, hr⟩
      · rw [if_neg hc] at h
        exact absurd h (by simp)

/-- If a bracket-rejecting pattern has no match on `a ++ v`, it has none
on `a` followed by a bracket barrier either: a match against the barrier
would live entirely inside `a` and transfer to `a ++ v`. -/
theorem matchAt_bracket_none (q : CPat)
    (hqlits : ∀ f ∈ q.lits, f '[' = false)
    (hqruns : ∀ r ∈ q.runs, r.1 '[' = false)
    (a v z : List Char) (hnone : matchAt q (a ++ v) = none) :
    matchAt q (a ++ '[' :: z) = none := by
  cases hb : matchAt q (a ++ '[' :: z) with
  | none => rfl
  | some mr =>
    exfalso
    obtain ⟨m, r⟩ := mr
    unfold matchAt at hb
    split at hb
    · rename_i la s1 heq1
      split at hb
      · rename_i b s2 heq2
        obtain ⟨a2, ha, hs1⟩ := matchLits_bracket hqlits heq1
        have hlits3 := (matchLits_decomp heq1).2.2
        rw [hs1] at heq2
        have hrne : matchRuns q.runs (a2 ++ '[' :: z) ≠ none := by
          rw [heq2]; simp
        have hL : matchLits q.lits (a ++ v) = some (la, a2 ++ v) := by
          rw [ha, List.append_assoc]
          exact hlits3 (a2 ++ v)
        have hR := matchRuns_bracket_any hqruns a2 z v hrne
        unfold matchAt at hnone
        split at hnone
        · rename_i la2 s12 heqL
          rw [hL] at heqL
          obtain ⟨rfl, rfl⟩ : la2 = la ∧ s12 = a2 ++ v := by
            injection heqL with h9
            exact ⟨(congrArg (·.1) h9).symm, (congrArg (·.2) h9).symm⟩
          split at hnone
          · exact absurd hnone (by simp)
          · rename_i heqR
            exact hR heqR
        · rename_i heqL
          rw [hL] at heqL
          exact absurd heqL (by simp)
      · exact absurd hb (by simp)
    · exact absurd hb (by simp)

/-- The pattern matches nowhere in `s`. -/
def Clean (q : CPat) (s : List Char) : Prop :=
  ∀ i : Nat, matchAt q (s.drop i) = none

/-- Replacement is the identity on a clean string. -/
theorem replaceAll_id {p : CPat} {repl : List Char} :
    ∀ s : List Char, Clean p s → replaceAllP p repl s = s := by
  intro s
  induction s with
  | nil =>
    intro h
    exact replaceAllP_nil (by simpa using h 0)
  | cons c rest ih =>
    intro h
    have h0 : matchAt p (c :: rest) = none := by simpa using h 0
    rw [replaceAllP_nomatch h0, ih (fun i => by simpa using h (i + 1))]

/-- Decomposition of a replacement pass at its first replaced match: the
output is the input unchanged, or an untouched prefix, the replacement
literal, and the processed remainder. -/
theorem firstBlock (p : CPat) (hp : p.lits ≠ []) (repl : List Char)
    (s : List Char) :
    replaceAllP p repl s = s ∨
      ∃ u m after, s = u ++ (m ++ after) ∧ m ≠ [] ∧
        replaceAllP p repl s = u ++ (repl ++ replaceAllP p repl after) ∧
        after.length < s.length := by
  induction s with
  | nil => exact Or.inl (replaceAllP_nil (matchAt_nil hp))
  | cons c rest ih =>
    match hm : matchAt p (c :: rest) with
    | some (m, after) =>
      obtain ⟨hdec, hlen⟩ := matchAt_decomp hm
      have hmne : m ≠ [] := by
        intro he
        rw [he] at hlen
        simp only [List.length_nil, Nat.le_zero] at hlen
        exact hp (List.eq_nil_of_length_eq_zero hlen)
      have hlt : after.length < rest.length + 1 := by
        have hfoo := congrArg List.length hdec
        simp only [List.length_append, List.length_cons] at hfoo
        have hpos : 0 < m.length := List.length_pos.mpr hmne
        omega
      refine Or.inr ⟨[], m, after, by simpa using hdec, hmne, ?_, by simpa using hlt⟩
      rw [replaceAllP_match hm hlt]
      simp
    | none =>
      rcases ih with he | ⟨u, m2, after2, h1, h2, h3, h4⟩
      · exact Or.inl (by rw [replaceAllP_nomatch hm, he])
      · refine Or.inr ⟨c :: u, m2, after2, by rw [h1]; simp, h2, ?_, ?_⟩
        · rw [replaceAllP_nomatch hm, h3]
          simp
        · simp only [List.length_cons]
          exact Nat.lt_succ_of_lt h4

/-- A pattern is well-behaved for redaction when its prefix is non-empty,
no predicate accepts `[`, and it cannot match starting anywhere inside the
replacement literal, whatever follows it. -/
def GoodPat (p : CPat) : Prop :=
  p.lits ≠ [] ∧ (∀ f ∈ p.lits, f '[' = false) ∧
  (∀ r ∈ p.runs, r.1 '[' = false) ∧
  (∀ i, i < 10 → ∀ z, matchAt p (redactedLit.drop i ++ z) = none)

/-- The central invariant: one replacement pass with a good pattern `q`'s
cleanliness in sight.  If every position of `s` where `p` has no match
also has no `q` match, then after replacing all `p` matches with
`[REDACTED]` the result has no `q` match anywhere: new text is only the
replacement literal, `q` cannot start inside it, and a `q` match over an
untouched stretch would stop at the inserted `[` and so would already have
matched in `s`. -/
theorem clean_replaceAll_aux (p q : CPat) (hp : p.lits ≠ []) (hq : GoodPat q) :
    ∀ n : Nat, ∀ s : List Char, s.length ≤ n →
      (∀ j, matchAt p (s.drop j) = none → matchAt q (s.drop j) = none) →
      Clean q (replaceAllP p redactedLit s) := by
  obtain ⟨hqne, hqlits, hqruns, hqR⟩ := hq
  intro n
  induction n with
  | zero =>
    intro s hs _
    have hnil : s = [] := List.eq_nil_of_length_eq_zero (Nat.le_zero.mp hs)
    subst hnil
    intro i
    rw [replaceAllP_nil (matchAt_nil hp)]
    simpa using matchAt_nil hqne
  | succ n ih =>
    intro s hs hgap
    match s with
    | [] =>
      intro i
      rw [replaceAllP_nil (matchAt_nil hp)]
      simpa using matchAt_nil hqne
    | c :: rest =>
      match hm : matchAt p (c :: rest) with
      | some (m, after) =>
        obtain ⟨hdec, hlen⟩ := matchAt_decomp hm
        have hmne : m ≠ [] := by
          intro he
          rw [he] at hlen
          simp only [List.length_nil, Nat.le_zero] at hlen
          exact hp (List.eq_nil_of_length_eq_zero hlen)
        have hlt : after.length < rest.length + 1 := by
          have hfoo := congrArg List.length hdec
          simp only [List.length_append, List.length_cons] at hfoo
          have hpos : 0 < m.length := List.length_pos.mpr hmne
          omega
        intro i
        rw [replaceAllP_match hm hlt]
        have hgap2 : ∀ j, matchAt p (after.drop j) = none →
            matchAt q (after.drop j) = none := by
          intro j
          have hbase : after.drop j = (c :: rest).drop (m.length + j) := by
            rw [hdec, ← List.drop_drop, List.drop_left]
          rw [hbase]
          exact hgap (m.length + j)
        have hlenle : after.length ≤ n := by
          simp only [List.length_cons] at hs hlt
          omega
        by_cases hi : i < 10
        · rw [List.drop_append_of_le_length (by simp [redactedLit]; omega)]
          exact hqR i hi _
        · have hsplit : (redactedLit ++ replaceAllP p redactedLit after).drop i =
              (replaceAllP p redactedLit after).drop (i - 10) := by
            conv_lhs => rw [show i = 10 + (i - 10) by omega]
            rw [← List.drop_drop]
            exact congrArg (List.drop (i - 10)) (List.drop_left redactedLit _)
          rw [hsplit]
          exact ih after hlenle hgap2 (i - 10)
      | none =>
        intro i
        rw [replaceAllP_nomatch hm]
        match i with
        | 0 =>
          simp only [List.drop_zero]
          have hq0 : matchAt q (c :: rest) = none := by
            have h5 := hgap 0
            simp only [List.drop_zero] at h5
            exact h5 hm
          rcases firstBlock p hp redactedLit rest with he | ⟨u, m2, after2, h1, _, h3, _⟩
          · rw [he]
            exact hq0
          · rw [h3]
            have heq : c :: (u ++ (redactedLit ++ replaceAllP p redactedLit after2)) =
                (c :: u) ++ ('[' :: (['R','E','D','A','C','T','E','D',']'] ++
                  replaceAllP p redactedLit after2)) := by
              simp [redactedLit]
            rw [heq]
            refine matchAt_bracket_none q hqlits hqruns (c :: u) (m2 ++ after2) _ ?_
            have h6 : (c :: u) ++ (m2 ++ after2) = c :: rest := by
              rw [h1]
              simp
            rw [h6]
            exact hq0
        | i + 1 =>
          simp only [List.drop_succ_cons]
          have hrest : rest.length ≤ n := by
            simp only [List.length_cons] at hs
            omega
          have hgap3 : ∀ j, matchAt p (rest.drop j) = none →
              matchAt q (rest.drop j) = none := by
            intro j
            have h7 := hgap (j + 1)
            simp only [List.drop_succ_cons] at h7
            exact h7
          exact ih rest hrest hgap3 i

/-- Replacing a good pattern's matches leaves no match of that pattern. -/
theorem replaceAll_self_clean (p : CPat) (hp : GoodPat p) (s : List Char) :
    Clean p (replaceAllP p redactedLit s) :=
  clean_replaceAll_aux p p hp.1 hp s.length s (Nat.le_refl _) (fun _ h => h)

/-- Replacing one pattern's matches with `[REDACTED]` preserves another
good pattern's cleanliness. -/
theorem replaceAll_pres_clean (p q : CPat) (hp : p.lits ≠ []) (hq : GoodPat q)
    (s : List Char) (hc : Clean q s) :
    Clean q (replaceAllP p redactedLit s) :=
  clean_replaceAll_aux p q hp hq s.length s (Nat.le_refl _) (fun j _ => hc j)

theorem skPat_good : GoodPat skPat := by
  refine ⟨by simp [skPat], ?_, ?_, ?_⟩
  · intro f hf
    simp only [skPat, List.mem_cons, List.not_mem_nil, or_false] at hf
    rcases hf with rfl | rfl | rfl <;> rfl
  · intro r hr
    simp only [skPat, List.mem_cons, List.not_mem_nil, or_false] at hr
    subst hr
    rfl
  · intro i hi z
    interval_cases i <;> rfl

theorem ghpPat_good : GoodPat ghpPat := by
  refine ⟨by simp [ghpPat], ?_, ?_, ?_⟩
  · intro f hf
    simp only [ghpPat, List.mem_cons, List.not_mem_nil, or_false] at hf
    rcases hf with rfl | rfl | rfl | rfl <;> rfl
  · intro r hr
    simp only [ghpPat, List.mem_cons, List.not_mem_nil, or_false] at hr
    subst hr
    rfl
  · intro i hi z
    interval_cases i <;> rfl

theorem xoxPat_good : GoodPat xoxPat := by
  refine ⟨by simp [xoxPat], ?_, ?_, ?_⟩
  · intro f hf
    simp only [xoxPat, List.mem_cons, List.not_mem_nil, or_false] at hf
    rcases hf with rfl | rfl | rfl | rfl | rfl <;> rfl
  · intro r hr
    simp only [xoxPat, List.mem_cons, List.not_mem_nil, or_false] at hr
    subst hr
    rfl
  · intro i hi z
    interval_cases i <;> rfl

theorem apiPat_good : GoodPat apiPat := by
  refine ⟨by simp [apiPat], ?_, ?_, ?_⟩
  · intro f hf
    simp only [apiPat, List.mem_cons, List.not_mem_nil, or_false] at hf
    rcases hf with rfl | rfl | rfl | rfl <;> rfl
  · intro r hr
    simp only [apiPat, List.mem_cons, List.not_mem_nil, or_false] at hr
    subst hr
    rfl
  · intro i hi z
    interval_cases i <;> rfl

theorem bearerPat_good : GoodPat bearerPat := by
  refine ⟨by simp [bearerPat], ?_, ?_, ?_⟩
  · intro f hf
    simp only [bearerPat, List.mem_cons, List.not_mem_nil, or_false] at hf
    rcases hf with rfl | rfl | rfl | rfl | rfl | rfl <;> rfl
  · intro r hr
    simp only [bearerPat, List.mem_cons, List.not_mem_nil, or_false] at hr
    rcases hr with rfl | rfl <;> rfl
  · intro i hi z
    interval_cases i <;> rfl

/-- C6: redaction is idempotent — `redactTokens (redactTokens T) =
redactTokens T` for every text `T`, where `redactTokens` replaces every
match of each declared token pattern (OpenAI `sk-`, GitHub `ghp_`, Slack
`xox`, generic `api_`, `Bearer`), in declaration order, with the literal
`[REDACTED]`.  After the first application each pattern is matchless: its
own pass removes its matches, later passes only insert `[REDACTED]`
blocks, no pattern can start inside such a block, and none can read across
the `[`, so the second application replaces nothing. -/
theorem redactTokens_idempotent (t : List Char) :
    redactTokens (redactTokens t) = redactTokens t := by
  have hred : ∀ u : List Char, redactTokens u =
      replaceAllP bearerPat redactedLit (replaceAllP apiPat redactedLit
        (replaceAllP xoxPat redactedLit (replaceAllP ghpPat redactedLit
          (replaceAllP skPat redactedLit u)))) := fun u => rfl
  have c_sk : Clean skPat (redactTokens t) := by
    rw [hred]
    exact replaceAll_pres_clean bearerPat skPat bearerPat_good.1 skPat_good _
      (replaceAll_pres_clean apiPat skPat apiPat_good.1 skPat_good _
        (replaceAll_pres_clean xoxPat skPat xoxPat_good.1 skPat_good _
          (replaceAll_pres_clean ghpPat skPat ghpPat_good.1 skPat_good _
            (replaceAll_self_clean skPat skPat_good t))))
  have c_ghp : Clean ghpPat (redactTokens t) := by
    rw [hred]
    exact replaceAll_pres_clean bearerPat ghpPat bearerPat_good.1 ghpPat_good _
      (replaceAll_pres_clean apiPat ghpPat apiPat_good.1 ghpPat_good _
        (replaceAll_pres_clean xoxPat ghpPat xoxPat_good.1 ghpPat_good _
          (replaceAll_self_clean ghpPat ghpPat_good _)))
  have c_xox : Clean xoxPat (redactTokens t) := by
    rw [hred]
    exact replaceAll_pres_clean bearerPat xoxPat bearerPat_good.1 xoxPat_good _
      (replaceAll_pres_clean apiPat xoxPat apiPat_good.1 xoxPat_good _
        (replaceAll_self_clean xoxPat xoxPat_good _))
  have c_api : Clean apiPat (redactTokens t) := by
    rw [hred]
    exact replaceAll_pres_clean bearerPat apiPat bearerPat_good.1 apiPat_good _
      (replaceAll_self_clean apiPat apiPat_good _)
  have c_bearer : Clean bearerPat (redactTokens t) := by
    rw [hred]
    exact replaceAll_self_clean bearerPat bearerPat_good _
  rw [hred (redactTokens t), replaceAll_id _ c_sk, replaceAll_id _ c_ghp,
    replaceAll_id _ c_xox, replaceAll_id _ c_api, replaceAll_id _ c_bearer]

end OpenPaw
